import Mathlib

/-!
# helm-optimize: the deduplication and cleanup engines, embedded and verified

This file is a shallow embedding of the two engines of the `helm-optimize`
repository — the dependency deduplicator (`pkg/dedup/deduplicator.go`,
`pkg/dedup/dedup.go`, `pkg/dedup/utils.go`) and the cleanup engine
(`pkg/cleanup/cleaner.go`, `pkg/cleanup/cleanup.go`) — together with proofs
about them.

Modelling conventions:

* A filesystem path is a list of components (`FsPath := List String`).  All
  paths handled by the engines are absolute (the Go code calls
  `filepath.Abs` on the root before traversing); `filepath.Dir` is
  `List.dropLast`, and `filepath.Join`, which cleans its result, is
  `joinClean`: joining a single trusted component is `p ++ [c]`, while a
  dependency name — which may contain `/`, `..`, `.` or empty segments — is
  split and cleaned by `depPathOf`, as `Join` does.
* The filesystem is a finite list of existing directories, each carrying the
  state of the `Chart.yaml` file directly inside it (`FS := List Entry`).
  Regular files other than `Chart.yaml` play no role in either engine and are
  not modelled; directory enumeration (`os.ReadDir`/`ioutil.ReadDir`) returns
  entries sorted by filename, modelled by `sortNames` in `childNames`.
* `os.RemoveAll` removes a whole subtree and is modelled as always
  succeeding; OS-level removal failures (permissions etc.) are outside the
  embedding.  Reads of `Chart.yaml` can fail: `ManifestState.unreadable`
  (present, `os.ReadFile` fails with the given message) and
  `ManifestState.malformed` (readable, `yaml.Unmarshal` fails with the given
  message) model the two failure modes.
* The Go methods mutate fields of a `Deduplicator`/`Cleaner` receiver and
  return an `error`; here they pass an explicit state record and return
  `state × Option error`, so that the state at the moment of an abort is
  visible, exactly as the receiver's fields are in Go.  The `mu sync.Mutex`
  around the dedup bookkeeping guards a single-threaded recursion and has no
  observable effect; it is not modelled (spec §5 says as much).
* Recursion over the directory tree is fuel-indexed (the Go recursion
  terminates because the filesystem is finite; the fuel plays that role).
  Running out of fuel is a distinguished outcome (`outOfFuel`), never
  identified with any behaviour of the program.
* The states carry two ghost fields (`visited`, `events`) recording the
  traversal trace.  Nothing in the modelled code reads them; they exist only
  so that theorems can speak about which charts the run reached and in which
  order dependencies were processed.
-/

/-- A filesystem path, as its list of components (absolute, no separators). -/
abbrev FsPath := List String

/-- One dependency record of a `Chart.yaml` `dependencies:` list, with the
fields both engines read (`name`, `version`, `repository`; the dedup engine
ignores `repository`). -/
structure DepRec where
  name : String
  version : String
  repository : String
deriving DecidableEq, Repr

/-- The state of the `Chart.yaml` file inside one directory. -/
inductive ManifestState where
  /-- No `Chart.yaml` in this directory (`os.Stat` reports not-exist). -/
  | noManifest : ManifestState
  /-- `Chart.yaml` exists but reading it fails with this OS error message. -/
  | unreadable (msg : String) : ManifestState
  /-- `Chart.yaml` reads fine but `yaml.Unmarshal` fails with this message. -/
  | malformed (msg : String) : ManifestState
  /-- `Chart.yaml` parses; these are its declared dependencies. -/
  | wellformed (deps : List DepRec) : ManifestState
deriving DecidableEq, Repr

/-- One existing directory: its absolute path and its `Chart.yaml` state. -/
structure Entry where
  path : FsPath
  m : ManifestState
deriving DecidableEq, Repr

/-- The filesystem: the finite list of existing directories, in directory
enumeration order. -/
abbrev FS := List Entry

/-- Well-formed filesystem: no two entries for the same path. -/
def wfFS (fs : FS) : Prop := (fs.map Entry.path).Nodup

instance : DecidablePred wfFS := fun fs => by unfold wfFS; infer_instance

/-- `os.Stat(p)` succeeds: the directory `p` exists. -/
def dirExists (fs : FS) (p : FsPath) : Bool := fs.any (fun e => e.path = p)

/-- The `Chart.yaml` state at directory `p` (`noManifest` when the directory
itself does not exist, matching `os.IsNotExist` on `p/Chart.yaml`). -/
def manifestAt (fs : FS) (p : FsPath) : ManifestState :=
  match fs.find? (fun e => e.path = p) with
  | some e => e.m
  | none => .noManifest

/-- `some n` when `q` is the path of an immediate child of `d` named `n`. -/
def childName? (d : FsPath) (q : FsPath) : Option String :=
  if q.take d.length = d then
    match q.drop d.length with
    | [n] => some n
    | _ => none
  else none

/-- Code-point comparison of file names (equivalently UTF-8 byte order, the
order `os.ReadDir` sorts directory entries by). -/
def charsLe : List Char → List Char → Bool
  | [], _ => true
  | _ :: _, [] => false
  | a :: as, b :: bs =>
    if a = b then charsLe as bs else Nat.blt a.toNat b.toNat

/-- `a ≤ b` on file names. -/
def strLe (a b : String) : Bool := charsLe a.data b.data

/-- Insert a name into a sorted list of names. -/
def insertName (n : String) : List String → List String
  | [] => [n]
  | m :: ms => if strLe n m then n :: m :: ms else m :: insertName n ms

/-- Sort names by file name, as `os.ReadDir` does (insertion sort). -/
def sortNames : List String → List String
  | [] => []
  | n :: ns => insertName n (sortNames ns)

/-- The names of the immediate subdirectories of `d`, sorted by file name
(`os.ReadDir`/`ioutil.ReadDir` return entries sorted by filename, filtered by
`IsDir`; every modelled entry is a directory). -/
def childNames (fs : FS) (d : FsPath) : List String :=
  sortNames (fs.filterMap (fun e => childName? d e.path))

/-- Does `pre` occur as a leading segment of `p`? -/
def startsWithPath (pre p : FsPath) : Bool :=
  match pre, p with
  | [], _ => true
  | _ :: _, [] => false
  | a :: as, b :: bs => a = b && startsWithPath as bs

/-- `os.RemoveAll(p)`: delete the directory `p` and everything below it
(a no-op when `p` does not exist). -/
def removeAll (fs : FS) (p : FsPath) : FS :=
  fs.filter (fun e => ¬ startsWithPath p e.path)

/-- The declared dependencies of the chart at `p` (empty unless the manifest
is present and parses). -/
def depsOf (fs : FS) (p : FsPath) : List DepRec :=
  match manifestAt fs p with
  | .wellformed deps => deps
  | _ => []

/-- `filepath.Base(filepath.Dir p)`: the name of the immediate parent
directory of `p` (`"/"` at the filesystem root, as in Go). -/
def parentDirName (p : FsPath) : String :=
  match p.dropLast.getLast? with
  | some s => s
  | none => "/"

/-- Is `pre` a leading run of `l`? -/
def charsPrefix : List Char → List Char → Bool
  | [], _ => true
  | _ :: _, [] => false
  | a :: as, b :: bs => a = b && charsPrefix as bs

/-- `strings.HasPrefix s pre` (over the characters of the strings). -/
def strStartsWith (s pre : String) : Bool := charsPrefix pre.data s.data

/-- Drop the first `n` characters of `s`. -/
def strDrop (s : String) (n : Nat) : String := ⟨s.data.drop n⟩

/-- `strings.TrimPrefix`: drop `pre` from the front of `s` if present. -/
def trimPre (s pre : String) : String :=
  if strStartsWith s pre then strDrop s pre.length else s

/-- Split `s` at `/` separators (the component decomposition of a
relative-path string; `strings`/`filepath` treat `/` as the separator). -/
def splitSlash (s : String) : List String :=
  (s.data.foldr
    (fun c acc =>
      match acc with
      | [] => [[c]]
      | g :: gs => if c = '/' then [] :: g :: gs else (c :: g) :: gs)
    [[]]).map (fun l => String.mk l)

/-- `filepath.Join base rel` followed by `filepath.Clean` for an absolute
`base`: append `rel`'s components, folding away `""`, `"."` and popping on
`".."` (at the root, `".."` stays at the root, as `filepath.Clean` does for
absolute paths). -/
def joinClean (base : FsPath) (comps : List String) : FsPath :=
  comps.foldl
    (fun acc c =>
      if c = "" ∨ c = "." then acc
      else if c = ".." then acc.dropLast
      else acc ++ [c])
    base

/-- `filepath.Join chartPath "charts" name` (with `filepath.Clean` applied by
`Join`): the dependency name is split at `/` and the components cleaned, so
names containing `/`, `"."`, `".."` or empty segments fold as in Go. -/
def depPathOf (chartPath : FsPath) (nm : String) : FsPath :=
  joinClean chartPath ("charts" :: splitSlash nm)

/-- The name is one ordinary path component: splitting at `/` returns it
unchanged and it is none of the special components `filepath.Clean` folds
away.  Under this condition `filepath.Join c "charts" nm` is literally
`c ++ ["charts", nm]`. -/
def cleanComp (nm : String) : Prop :=
  splitSlash nm = [nm] ∧ nm ≠ "" ∧ nm ≠ "." ∧ nm ≠ ".."

instance : DecidablePred cleanComp := fun nm => by unfold cleanComp; infer_instance

/-- Does `sub` start at some position of `l`? -/
def charsContain (sub : List Char) : List Char → Bool
  | [] => charsPrefix sub []
  | c :: cs => charsPrefix sub (c :: cs) || charsContain sub cs

/-- Does `sub` occur inside `s`? -/
def strContains (s sub : String) : Bool := charsContain sub.data s.data

/-- Render a component path the way Go prints it. -/
def pathString (p : FsPath) : String := p.foldl (fun acc c => acc ++ "/" ++ c) ""

/-- Sequential fold over a work queue of names that stops at the first error:
the shape shared by the `for _, entry := range entries` loops of both
engines' traversals. -/
def runQueue {σ ε : Type} (step : σ → String → σ × Option ε) :
    σ → List String → σ × Option ε
  | st, [] => (st, none)
  | st, n :: ns =>
    match step st n with
    | (st', some e) => (st', some e)
    | (st', none) => runQueue step st' ns

/-! ## The deduplication engine (`pkg/dedup`) -/

/-- `Dependency.Key()`: `fmt.Sprintf("%s-%s", name, version)`. -/
def depKeyOf (d : DepRec) : String := d.name ++ "-" ++ d.version

/-- `ChartPath`: one observed occurrence of a dependency — its expected
on-disk path and the parent directory of the chart that declared it. -/
structure ChartPath where
  path : FsPath
  parentPath : FsPath
deriving DecidableEq, Repr

/-- The fields of the Go `Deduplicator` struct that the algorithm reads:
the occurrence registry keyed by `name-version`, the kept list, and the
deletion set. -/
structure DCore where
  overall : List (String × List ChartPath)
  current : List FsPath
  deleted : List FsPath
deriving DecidableEq, Repr

/-- Lookup in the `overallDependencies` map. -/
def lookupDeps (m : List (String × List ChartPath)) (k : String) :
    Option (List ChartPath) :=
  match m.find? (fun kv => kv.1 = k) with
  | some kv => some kv.2
  | none => none

/-- `m[k] = v` on the `overallDependencies` map: replace the binding for `k`,
or add one. -/
def insertDeps (m : List (String × List ChartPath)) (k : String)
    (v : List ChartPath) : List (String × List ChartPath) :=
  match m with
  | [] => [(k, v)]
  | kv :: rest =>
    if kv.1 = k then (k, v) :: rest else kv :: insertDeps rest k v

/-- The classification loop body of `processDependencies` (the
`for _, existingChartPath := range paths` loop): fold over the registered
occurrences carrying `isTrueDuplicate` and `originalPath` (`none` models the
initial `""`), breaking with `isTrueDuplicate = false` on an exact path
match. -/
def dupScan (depPath parentPath : FsPath) :
    Bool → Option FsPath → List ChartPath → Bool × Option FsPath
  | isDup, orig, [] => (isDup, orig)
  | isDup, orig, e :: rest =>
    let orig' := match orig with
      | none => some e.path
      | some o => some o
    if e.path = depPath then (false, orig')
    else if e.parentPath = parentPath then dupScan depPath parentPath true orig' rest
    else dupScan depPath parentPath isDup orig' rest

/-- One iteration of the `for _, dep := range chartYaml.Dependencies` loop of
`processDependencies`: classify the dependency occurrence and update the
registry, kept list and deletion set. -/
def processDep (chartPath : FsPath) (core : DCore) (dep : DepRec) : DCore :=
  let depKey := depKeyOf dep
  let depPath := depPathOf chartPath dep.name
  let parentPath := chartPath.dropLast
  match lookupDeps core.overall depKey with
  | some paths =>
    let scan := dupScan depPath parentPath false none paths
    if scan.1 then
      if some depPath ≠ scan.2 then
        { core with deleted := core.deleted ++ [depPath] }
      else
        { core with
          overall := insertDeps core.overall depKey
            (paths ++ [⟨depPath, parentPath⟩]),
          current := core.current ++ [depPath] }
    else
      { core with
        overall := insertDeps core.overall depKey
          (paths ++ [⟨depPath, parentPath⟩]),
        current := core.current ++ [depPath] }
  | none =>
    { core with
      overall := insertDeps core.overall depKey [⟨depPath, parentPath⟩],
      current := core.current ++ [depPath] }

/-- Errors of the dedup traversal.  `ioErr` is the raw `os.ReadFile` error,
`parseErr` the raw `yaml.Unmarshal` error (`readChartYaml` in `utils.go`
returns both unwrapped); `outOfFuel` is the model's fuel bound, not a
program behaviour. -/
inductive DErr where
  | outOfFuel : DErr
  | ioErr (msg : String) : DErr
  | parseErr (msg : String) : DErr
deriving DecidableEq, Repr

/-- The dedup traversal state: the `Deduplicator` fields plus the two ghost
trace fields (`visited`: charts whose `Chart.yaml` was found, in discovery
order; `events`: the dependency occurrences processed, in order). -/
structure DState where
  core : DCore
  visited : List FsPath
  events : List (FsPath × DepRec)
deriving DecidableEq, Repr

/-- The fresh state built by `NewDeduplicator`. -/
def initDState : DState := ⟨⟨[], [], []⟩, [], []⟩

/-- `Deduplicator.processDependencies`: read the manifest at `chartPath` (if
`Chart.yaml` exists), classify each declared dependency, then recurse into
the subdirectories of `chartPath/charts`, skipping those already in the
deletion set.  Errors abort the whole recursion; the state reached so far is
returned alongside (in Go it persists in the receiver). -/
def processDependencies : Nat → FS → DState → FsPath → DState × Option DErr
  | 0, _, st, _ => (st, some .outOfFuel)
  | fuel + 1, fs, st, chartPath =>
    let afterManifest : DState × Option DErr :=
      match manifestAt fs chartPath with
      | .noManifest => (st, none)
      | .unreadable msg =>
        ({ st with visited := st.visited ++ [chartPath] }, some (.ioErr msg))
      | .malformed msg =>
        ({ st with visited := st.visited ++ [chartPath] }, some (.parseErr msg))
      | .wellformed deps =>
        ({ core := deps.foldl (processDep chartPath) st.core,
           visited := st.visited ++ [chartPath],
           events := st.events ++ deps.map (fun d => (chartPath, d)) }, none)
    match afterManifest with
    | (st1, some e) => (st1, some e)
    | (st1, none) =>
      let chartsDir := chartPath ++ ["charts"]
      if dirExists fs chartsDir then
        runQueue
          (fun st n =>
            let subChartPath := chartsDir ++ [n]
            if st.core.deleted.contains subChartPath then (st, none)
            else processDependencies fuel fs st subChartPath)
          st1 (childNames fs chartsDir)
      else (st1, none)

/-- Options of the dedup engine (`pkg/dedup/dedup.go`).  Only `chartPath`
and `dryRun` influence behaviour; `showDeleted` and `verbose` only control
printing, `outputDir` and `pack` feed the unimplemented packaging stub. -/
structure DedupOptions where
  chartPath : FsPath
  outputDir : Option FsPath
  pack : Bool
  dryRun : Bool
  showDeleted : Bool
  verbose : Bool

/-- The result of one `DeduplicateChart` call: the final traversal state, the
filesystem afterwards, the paths actually passed to `os.RemoveAll` (ghost),
the returned deletion list, and the returned error. -/
structure DedupResult where
  state : DState
  fsAfter : FS
  removed : List FsPath
  reported : List FsPath
  err : Option DErr

/-- `Deduplicator.DeduplicateChart`: run the traversal; on success and not
dry-run, remove every path of the deletion set in order (removals succeed in
the model); on error return it with nothing removed. -/
def DeduplicateChart (opts : DedupOptions) (fuel : Nat) (fs : FS)
    (chartPath : FsPath) : DedupResult :=
  match processDependencies fuel fs initDState chartPath with
  | (st, some e) => ⟨st, fs, [], [], some e⟩
  | (st, none) =>
    if opts.dryRun then ⟨st, fs, [], st.core.deleted, none⟩
    else
      ⟨st, st.core.deleted.foldl removeAll fs, st.core.deleted,
        st.core.deleted, none⟩

/-- `dedup.Run`: validate that the chart path exists, then deduplicate
(the packaging step is an unimplemented no-op). -/
def dedupRun (opts : DedupOptions) (fuel : Nat) (fs : FS) : DedupResult :=
  if dirExists fs opts.chartPath then
    DeduplicateChart opts fuel fs opts.chartPath
  else
    ⟨initDState, fs, [], [],
      some (.ioErr ("chart path '" ++ pathString opts.chartPath ++ "' does not exist"))⟩

/-! ## The cleanup engine (`pkg/cleanup`) -/

/-- Errors of the cleanup traversal: the `fmt.Errorf` strings of
`cleaner.go`, plus the model's fuel bound. -/
inductive CErr where
  | outOfFuel : CErr
  | errMsg (s : String) : CErr
deriving DecidableEq, Repr

/-- The cleanup state: the filesystem, the `deletedPaths` field of the
`Cleaner`, and two ghost trace fields (`removed`: paths passed to
`os.RemoveAll`, in order; `visited`: charts whose `Chart.yaml` was found). -/
structure CState where
  fs : FS
  deleted : List FsPath
  removed : List FsPath
  visited : List FsPath
deriving DecidableEq, Repr

/-- Resolve the `repository: file:...` reference of `dep` declared by the
chart at `chartPath`: strip `file://` then `file:` then a leading `./`, and
join to the chart directory (`filepath.Join` + `filepath.Abs`; `chartPath`
is already absolute). -/
def resolveFileDep (chartPath : FsPath) (dep : DepRec) : FsPath :=
  let relPath := trimPre (trimPre dep.repository "file://") "file:"
  let relPath := if strStartsWith relPath "./" then strDrop relPath 2 else relPath
  joinClean chartPath (splitSlash relPath)

/-- One iteration of the dependency loop of `cleanupFileDependencies`: skip
non-`file:` repositories, skip targets that do not exist, skip targets whose
immediate parent directory is named `charts`, otherwise record the target
and (unless dry-run) remove it at once. -/
def cleanupDep (dry : Bool) (chartPath : FsPath) (st : CState) (dep : DepRec) :
    CState :=
  if strStartsWith dep.repository "file:" then
    let originalDirPath := resolveFileDep chartPath dep
    if dirExists st.fs originalDirPath then
      if parentDirName originalDirPath = "charts" then st
      else if dry then { st with deleted := st.deleted ++ [originalDirPath] }
      else
        { st with
          fs := removeAll st.fs originalDirPath,
          deleted := st.deleted ++ [originalDirPath],
          removed := st.removed ++ [originalDirPath] }
    else st
  else st

/-- `Cleaner.cleanupFileDependencies`: read and parse `Chart.yaml`, then
process each declared dependency; a read or parse failure aborts with the
wrapped error message of `cleaner.go`. -/
def cleanupFileDependencies (dry : Bool) (st : CState) (chartPath : FsPath) :
    CState × Option CErr :=
  match manifestAt st.fs chartPath with
  | .noManifest =>
    (st, some (.errMsg ("failed to read Chart.yaml: open " ++
      pathString (chartPath ++ ["Chart.yaml"]) ++ ": no such file or directory")))
  | .unreadable msg => (st, some (.errMsg ("failed to read Chart.yaml: " ++ msg)))
  | .malformed msg => (st, some (.errMsg ("failed to parse Chart.yaml: " ++ msg)))
  | .wellformed deps => (deps.foldl (cleanupDep dry chartPath) st, none)

/-- `Cleaner.processChart`: skip directories without `Chart.yaml`, clean up
this chart's file dependencies, then recurse depth-first into the
subdirectories of `chartPath/charts` (enumerated once, before any child
runs). -/
def processChart (dry : Bool) : Nat → CState → FsPath → CState × Option CErr
  | 0, st, _ => (st, some .outOfFuel)
  | fuel + 1, st, chartPath =>
    if manifestAt st.fs chartPath = .noManifest then (st, none)
    else
      let st := { st with visited := st.visited ++ [chartPath] }
      match cleanupFileDependencies dry st chartPath with
      | (st1, some e) => (st1, some e)
      | (st1, none) =>
        let chartsDir := chartPath ++ ["charts"]
        if dirExists st1.fs chartsDir then
          runQueue
            (fun st n => processChart dry fuel st (chartsDir ++ [n]))
            st1 (childNames st1.fs chartsDir)
        else (st1, none)

/-- Options of the cleanup engine (`pkg/cleanup/cleanup.go`).  Only
`chartPath` and `dryRun` influence behaviour. -/
structure CleanupOptions where
  chartPath : FsPath
  dryRun : Bool
  showDeleted : Bool
  verbose : Bool

/-- `Cleaner.Cleanup` (as invoked by `cleanup.Run`, which adds no
validation): start the DFS from the root chart with a fresh `deletedPaths`.
The root path is absolute (`filepath.Abs`). -/
def Cleanup (opts : CleanupOptions) (fuel : Nat) (fs : FS) :
    CState × Option CErr :=
  processChart opts.dryRun fuel ⟨fs, [], [], []⟩ opts.chartPath

/-! ## Static reachability for the cleanup tree

`reach fs fuel p` mirrors the traversal shape of `processChart` over a fixed
filesystem: the chart nodes a cleanup run started at `p` would visit if the
filesystem never changed. -/

/-- The chart nodes reachable from `p` in `fs` within `fuel` levels,
following the `processChart` recursion shape. -/
def reach (fs : FS) : Nat → FsPath → List FsPath
  | 0, _ => []
  | fuel + 1, p =>
    if manifestAt fs p = .noManifest then []
    else
      let chartsDir := p ++ ["charts"]
      if dirExists fs chartsDir then
        p :: (childNames fs chartsDir).flatMap
          (fun n => reach fs fuel (chartsDir ++ [n]))
      else [p]

/-- The chart node `c` is clean: its manifest parses and every `file:`
dependency target is already gone or guarded by the `charts`-parent rule.
`targetsClean` below — `cleanAt` at every reachable node — is the state a
successful non-dry cleanup run leaves behind. -/
def cleanAt (fs : FS) (c : FsPath) : Prop :=
  ∃ deps, manifestAt fs c = .wellformed deps ∧
    ∀ dep ∈ deps, strStartsWith dep.repository "file:" = true →
      dirExists fs (resolveFileDep c dep) = false ∨
        parentDirName (resolveFileDep c dep) = "charts"

/-- `cleanAt` at every reachable chart node. -/
def targetsClean (fs : FS) (p : FsPath) : Prop :=
  ∀ fuel, ∀ c ∈ reach fs fuel p, cleanAt fs c

/-! ## Verification-layer definitions -/

/-- Replay one recorded dependency event against a dedup core state. -/
def replayDep (core : DCore) (ev : FsPath × DepRec) : DCore :=
  processDep ev.1 core ev.2

/-- The dependency events the chart at `c` contributes, in manifest order. -/
def evsOf (fs : FS) (c : FsPath) : List (FsPath × DepRec) :=
  (depsOf fs c).map (fun d => (c, d))

/-- The dependency list a manifest state carries (empty unless it parses). -/
def manifestDeps : ManifestState → List DepRec
  | .wellformed deps => deps
  | _ => []

/-- What one dedup traversal step (from state `st`, over charts satisfying
`P`) guarantees about its result `(st', e)`: the trace fields grow by a
well-shaped delta and the core is the replay of the new events. -/
def DMaster (fs : FS) (P : FsPath → Prop) (st : DState) (st' : DState)
    (e : Option DErr) : Prop :=
  ∃ dv de,
    st'.visited = st.visited ++ dv ∧
    st'.events = st.events ++ de ∧
    st'.core = de.foldl replayDep st.core ∧
    dv.Nodup ∧
    (∀ c ∈ dv, P c ∧ manifestAt fs c ≠ .noManifest) ∧
    (∀ ev ∈ de, ev.1 ∈ dv ∧ ev.2 ∈ manifestDeps (manifestAt fs ev.1)) ∧
    (e = none → de = dv.flatMap (evsOf fs) ∧
      ∀ c ∈ dv, ∃ deps, manifestAt fs c = .wellformed deps)

/-- How many times dependencies with identity key `k` are declared across
all manifests of the filesystem (counting repeats within one manifest). -/
def declCount (fs : FS) (k : String) : Nat :=
  (fs.map (fun e => ((manifestDeps e.m).filter (fun d => depKeyOf d = k)).length)).sum

/-- How one cleanup step grows the state: the filesystem only shrinks, the
deletion set and removal trace grow only by `charts`-guarded paths, the
visited trace only grows, and a dry run touches neither the filesystem nor
the removal trace. -/
def CGrow (dry : Bool) (a b : CState) : Prop :=
  b.fs.Sublist a.fs ∧
  (∃ l, b.deleted = a.deleted ++ l ∧ ∀ q ∈ l, parentDirName q ≠ "charts") ∧
  (∃ l, b.removed = a.removed ++ l ∧ ∀ q ∈ l, parentDirName q ≠ "charts") ∧
  (∃ l, b.visited = a.visited ++ l) ∧
  (dry = true → b.fs = a.fs ∧ b.removed = a.removed)

/-! ## Generic fold and queue lemmas -/

theorem foldl_rel {α σ : Type} {R : σ → σ → Prop} (hrefl : ∀ s, R s s)
    (htrans : ∀ a b c, R a b → R b c → R a c) (f : σ → α → σ)
    (hstep : ∀ s a, R s (f s a)) :
    ∀ (l : List α) (s : σ), R s (l.foldl f s) := by
  intro l
  induction l with
  | nil => intro s; exact hrefl s
  | cons a t ih =>
    intro s
    exact htrans _ _ _ (hstep s a) (ih (f s a))

theorem runQueue_rel {σ ε : Type} {step : σ → String → σ × Option ε}
    {R : σ → σ → Prop} (hrefl : ∀ s, R s s)
    (htrans : ∀ a b c, R a b → R b c → R a c)
    (hstep : ∀ s n, R s (step s n).1) :
    ∀ (ns : List String) (st st' : σ) (e : Option ε),
      runQueue step st ns = (st', e) → R st st' := by
  intro ns
  induction ns with
  | nil => intro st st' e h; simp [runQueue] at h; rw [← h.1]; exact hrefl st
  | cons n t ih =>
    intro st st' e h
    simp only [runQueue] at h
    rcases hs : step st n with ⟨s1, e1⟩
    rw [hs] at h
    match e1, h with
    | some e1, h =>
      simp at h
      have := hstep st n
      rw [hs] at this
      rw [← h.1]; exact this
    | none, h =>
      simp at h
      have h1 := hstep st n
      rw [hs] at h1
      exact htrans _ _ _ h1 (ih s1 st' e h)

theorem runQueue_ok_rel {σ ε : Type} {step : σ → String → σ × Option ε}
    {R : σ → σ → Prop} (hrefl : ∀ s, R s s)
    (htrans : ∀ a b c, R a b → R b c → R a c)
    (hstep : ∀ s n s', step s n = (s', none) → R s s') :
    ∀ (ns : List String) (st st' : σ),
      runQueue step st ns = (st', none) → R st st' := by
  intro ns
  induction ns with
  | nil => intro st st' h; simp [runQueue] at h; rw [← h]; exact hrefl st
  | cons n t ih =>
    intro st st' h
    simp only [runQueue] at h
    rcases hs : step st n with ⟨s1, e1⟩
    rw [hs] at h
    match e1, h with
    | some e1, h => simp at h
    | none, h =>
      simp at h
      exact htrans _ _ _ (hstep st n s1 hs) (ih s1 st' h)

theorem runQueue_err_prop {σ ε : Type} {step : σ → String → σ × Option ε}
    {Q : ε → Prop} (hstep : ∀ s n s' e, step s n = (s', some e) → Q e) :
    ∀ (ns : List String) (st st' : σ) (e : ε),
      runQueue step st ns = (st', some e) → Q e := by
  intro ns
  induction ns with
  | nil => intro st st' e h; simp [runQueue] at h
  | cons n t ih =>
    intro st st' e h
    simp only [runQueue] at h
    rcases hs : step st n with ⟨s1, e1⟩
    rw [hs] at h
    match e1, h with
    | some e1, h =>
      simp at h
      exact h.2 ▸ hstep st n s1 e1 hs
    | none, h =>
      simp at h
      exact ih s1 st' e h

/-! ## Path and filesystem lemmas -/

theorem startsWithPath_iff : ∀ (pre p : FsPath),
    startsWithPath pre p = true ↔ pre <+: p := by
  intro pre
  induction pre with
  | nil =>
    intro p
    constructor
    · intro _; exact List.nil_prefix
    · intro _; rfl
  | cons a as ih =>
    intro p
    cases p with
    | nil =>
      constructor
      · intro h; exact absurd h (by simp [startsWithPath])
      · intro h; exact absurd (List.IsPrefix.length_le h) (by simp)
    | cons b bs =>
      rw [List.cons_prefix_cons]
      constructor
      · intro h
        simp [startsWithPath] at h
        exact ⟨h.1, (ih bs).1 h.2⟩
      · rintro ⟨rfl, h⟩
        simp [startsWithPath]
        exact (ih bs).2 h

theorem dirExists_iff {fs : FS} {p : FsPath} :
    dirExists fs p = true ↔ ∃ e ∈ fs, e.path = p := by
  simp [dirExists]

theorem manifestAt_eq_noManifest_of_not_exists {fs : FS} {p : FsPath}
    (h : dirExists fs p = false) : manifestAt fs p = .noManifest := by
  unfold manifestAt
  have : fs.find? (fun e => e.path = p) = none := by
    rw [List.find?_eq_none]
    intro e he
    simp [dirExists] at h
    simpa using h e he
  rw [this]

theorem manifestAt_mem {fs : FS} {p : FsPath}
    (h : manifestAt fs p ≠ .noManifest) :
    ∃ e ∈ fs, e.path = p ∧ e.m = manifestAt fs p := by
  unfold manifestAt at *
  rcases hf : fs.find? (fun e => e.path = p) with _ | e
  · rw [hf] at h; exact absurd rfl h
  · rw [hf] at h ⊢
    refine ⟨e, List.mem_of_find?_eq_some hf, ?_, rfl⟩
    have := List.find?_some hf
    simpa using this

theorem childName?_eq_some {d q : FsPath} {n : String} :
    childName? d q = some n ↔ q = d ++ [n] := by
  constructor
  · intro h
    unfold childName? at h
    by_cases htake : q.take d.length = d
    · rw [if_pos htake] at h
      rcases hdrop : q.drop d.length with _ | ⟨x, xs⟩ <;> rw [hdrop] at h
      · simp at h
      · cases xs with
        | nil =>
          simp at h
          subst h
          conv_lhs => rw [← List.take_append_drop d.length q]
          rw [htake, hdrop]
        | cons y ys => simp at h
    · rw [if_neg htake] at h
      simp at h
  · intro h
    subst h
    unfold childName?
    rw [List.take_left, List.drop_left]
    simp

theorem insertName_perm (n : String) :
    ∀ (l : List String), (insertName n l).Perm (n :: l) := by
  intro l
  induction l with
  | nil => exact List.Perm.refl _
  | cons m ms ih =>
    unfold insertName
    by_cases h : strLe n m = true
    · rw [if_pos h]
    · rw [if_neg h]
      exact (List.Perm.cons m ih).trans (List.Perm.swap n m ms)

theorem sortNames_perm : ∀ (l : List String), (sortNames l).Perm l := by
  intro l
  induction l with
  | nil => exact List.Perm.refl _
  | cons n ns ih =>
    unfold sortNames
    exact (insertName_perm n (sortNames ns)).trans (List.Perm.cons n ih)

theorem mem_childNames {fs : FS} {d : FsPath} {n : String} :
    n ∈ childNames fs d ↔ ∃ e ∈ fs, e.path = d ++ [n] := by
  unfold childNames
  rw [(sortNames_perm _).mem_iff]
  rw [List.mem_filterMap]
  constructor
  · rintro ⟨e, he, hn⟩
    exact ⟨e, he, childName?_eq_some.1 hn⟩
  · rintro ⟨e, he, hp⟩
    exact ⟨e, he, childName?_eq_some.2 hp⟩

theorem childNames_nodup {fs : FS} (wf : wfFS fs) (d : FsPath) :
    (childNames fs d).Nodup := by
  unfold childNames
  refine ((sortNames_perm _).nodup_iff).2 ?_
  have : fs.filterMap (fun e => childName? d e.path) =
      (fs.map Entry.path).filterMap (childName? d) := by
    rw [List.filterMap_map]
    rfl
  rw [this]
  apply List.Nodup.filterMap _ wf
  intro q q' n h1 h2
  simp only [Option.mem_def] at h1 h2
  rw [childName?_eq_some.1 h1, childName?_eq_some.1 h2]

theorem snoc_prefix_unique {d c : FsPath} {n n' : String}
    (h : (d ++ [n]) <+: c) (h' : (d ++ [n']) <+: c) : n = n' := by
  have hlen : (d ++ [n]).length = (d ++ [n']).length := by simp
  have : d ++ [n] = d ++ [n'] := by
    rcases List.prefix_or_prefix_of_prefix h h' with hp | hp
    · exact List.IsPrefix.eq_of_length hp hlen
    · exact (List.IsPrefix.eq_of_length hp hlen.symm).symm
  simpa using this

theorem removeAll_sublist (fs : FS) (p : FsPath) :
    (removeAll fs p).Sublist fs := List.filter_sublist fs

theorem manifestAt_eq_of_mem {fs : FS} {e : Entry} {p : FsPath} (wf : wfFS fs)
    (he : e ∈ fs) (hp : e.path = p) : manifestAt fs p = e.m := by
  unfold manifestAt
  rcases hf : fs.find? (fun x => x.path = p) with _ | e'
  · exfalso
    rw [List.find?_eq_none] at hf
    exact hf e he (by simp [hp])
  · have he' : e' ∈ fs := List.mem_of_find?_eq_some hf
    have hp' : e'.path = p := by simpa using List.find?_some hf
    have heq : e' = e := List.inj_on_of_nodup_map wf he' he (by rw [hp', hp])
    rw [hf, heq]

theorem manifestAt_of_sublist {fs fs' : FS} (wf : wfFS fs)
    (hsub : fs'.Sublist fs) {p : FsPath}
    (h : manifestAt fs' p ≠ .noManifest) :
    manifestAt fs p = manifestAt fs' p := by
  obtain ⟨e, he, hp, hm⟩ := manifestAt_mem h
  rw [manifestAt_eq_of_mem wf (hsub.mem he) hp, hm]

/-! ## Cleanup engine: step and traversal facts -/

theorem depPathOf_clean (c : FsPath) (nm : String) (h : cleanComp nm) :
    depPathOf c nm = c ++ ["charts", nm] := by
  obtain ⟨hs, h0, h1, h2⟩ := h
  unfold depPathOf joinClean
  rw [hs]
  simp only [List.foldl_cons, List.foldl_nil]
  rw [if_neg (show ¬ (("charts" : String) = "" ∨ ("charts" : String) = ".")
      from by decide),
    if_neg (show ¬ (("charts" : String) = "..") from by decide),
    if_neg (show ¬ (nm = "" ∨ nm = ".") from fun hh => hh.elim h0 h1),
    if_neg h2]
  simp

theorem CGrow_refl (dry : Bool) (a : CState) : CGrow dry a a :=
  ⟨List.Sublist.refl _, ⟨[], by simp⟩, ⟨[], by simp⟩, ⟨[], by simp⟩,
    fun _ => ⟨rfl, rfl⟩⟩

theorem CGrow_trans {dry : Bool} {a b c : CState} (h1 : CGrow dry a b)
    (h2 : CGrow dry b c) : CGrow dry a c := by
  obtain ⟨s1, ⟨l1, hd1, hg1⟩, ⟨m1, hr1, hgr1⟩, ⟨v1, hv1⟩, hdry1⟩ := h1
  obtain ⟨s2, ⟨l2, hd2, hg2⟩, ⟨m2, hr2, hgr2⟩, ⟨v2, hv2⟩, hdry2⟩ := h2
  refine ⟨s2.trans s1, ⟨l1 ++ l2, ?_, ?_⟩, ⟨m1 ++ m2, ?_, ?_⟩, ⟨v1 ++ v2, ?_⟩, ?_⟩
  · rw [hd2, hd1, List.append_assoc]
  · intro q hq
    rcases List.mem_append.1 hq with h | h
    · exact hg1 q h
    · exact hg2 q h
  · rw [hr2, hr1, List.append_assoc]
  · intro q hq
    rcases List.mem_append.1 hq with h | h
    · exact hgr1 q h
    · exact hgr2 q h
  · rw [hv2, hv1, List.append_assoc]
  · intro h
    obtain ⟨hfs1, hrm1⟩ := hdry1 h
    obtain ⟨hfs2, hrm2⟩ := hdry2 h
    exact ⟨hfs2.trans hfs1, hrm2.trans hrm1⟩

theorem cleanupDep_grow (dry : Bool) (cp : FsPath) (st : CState) (dep : DepRec) :
    CGrow dry st (cleanupDep dry cp st dep) := by
  unfold cleanupDep
  dsimp only
  by_cases hf : strStartsWith dep.repository "file:" = true
  · rw [if_pos hf]
    by_cases he : dirExists st.fs (resolveFileDep cp dep) = true
    · rw [if_pos he]
      by_cases hguard : parentDirName (resolveFileDep cp dep) = "charts"
      · rw [if_pos hguard]; exact CGrow_refl dry st
      · rw [if_neg hguard]
        cases hdry : dry with
        | true =>
          rw [if_pos rfl]
          exact ⟨List.Sublist.refl _, ⟨[_], rfl, by simp [hguard]⟩,
            ⟨[], by simp⟩, ⟨[], by simp⟩, fun _ => ⟨rfl, rfl⟩⟩
        | false =>
          rw [if_neg (by simp)]
          exact ⟨removeAll_sublist _ _, ⟨[_], rfl, by simp [hguard]⟩,
            ⟨[_], rfl, by simp [hguard]⟩, ⟨[], by simp⟩, fun h => by simp at h⟩
    · rw [if_neg he]; exact CGrow_refl dry st
  · rw [if_neg hf]; exact CGrow_refl dry st

theorem cleanupFileDependencies_grow (dry : Bool) (st : CState) (cp : FsPath) :
    CGrow dry st (cleanupFileDependencies dry st cp).1 := by
  unfold cleanupFileDependencies
  split
  · exact CGrow_refl dry st
  · exact CGrow_refl dry st
  · exact CGrow_refl dry st
  · exact foldl_rel (CGrow_refl dry) (fun _ _ _ => CGrow_trans)
      (cleanupDep dry cp) (fun s d => cleanupDep_grow dry cp s d) _ st

theorem runQueue_rel_fst {σ ε : Type} {step : σ → String → σ × Option ε}
    {R : σ → σ → Prop} (hrefl : ∀ s, R s s)
    (htrans : ∀ a b c, R a b → R b c → R a c)
    (hstep : ∀ s n, R s (step s n).1) (ns : List String) (st : σ) :
    R st (runQueue step st ns).1 := by
  rcases h : runQueue step st ns with ⟨st', e⟩
  exact runQueue_rel hrefl htrans hstep ns st st' e h

theorem processChart_grow (dry : Bool) :
    ∀ (fuel : Nat) (st : CState) (p : FsPath),
      CGrow dry st (processChart dry fuel st p).1 := by
  intro fuel
  induction fuel with
  | zero => intro st p; exact CGrow_refl dry st
  | succ fuel ih =>
    intro st p
    simp only [processChart]
    split
    · exact CGrow_refl dry st
    · have hvis : CGrow dry st ({ st with visited := st.visited ++ [p] } : CState) :=
        ⟨List.Sublist.refl _, ⟨[], by simp⟩, ⟨[], by simp⟩, ⟨[p], by simp⟩,
          fun _ => ⟨rfl, rfl⟩⟩
      rcases hc : cleanupFileDependencies dry
          { st with visited := st.visited ++ [p] } p with ⟨st1, e1⟩
      have h1 : CGrow dry st st1 := by
        have := cleanupFileDependencies_grow dry
          { st with visited := st.visited ++ [p] } p
        rw [hc] at this
        exact CGrow_trans hvis this
      cases e1 with
      | some e1 => exact h1
      | none =>
        dsimp only
        split
        · exact CGrow_trans h1
            (runQueue_rel_fst (CGrow_refl dry) (fun _ _ _ => CGrow_trans)
              (fun s n => ih s _) _ st1)
        · exact h1

/-! ## Claims C8, C6, C3, C4 -/

/-- C8: the claim says that a dependency occurrence whose expected path
exactly equals an already-registered path under the same key is skipped with
no registration change, no kept-list change and no deletion.  The code's own
comment says "skip it entirely", but after breaking out of the scan loop the
flow falls into the keep branch: evaluating the engine on a chart that
declares the same dependency twice shows the registry gaining a second,
identical occurrence and the kept list gaining the path a second time (the
deletion set does stay empty). -/
theorem claim_c8 :
    (processDependencies 1 [⟨["r"], .wellformed [⟨"a", "1", ""⟩, ⟨"a", "1", ""⟩]⟩]
        initDState ["r"]).1.core =
      ⟨[("a-1", [⟨["r", "charts", "a"], []⟩, ⟨["r", "charts", "a"], []⟩])],
        [["r", "charts", "a"], ["r", "charts", "a"]], []⟩ := by decide

/-- C6/counterexample: the cleanup engine, invoked on a root chart path that
does not exist, returns success (no error) with an empty deletion set — it
does not reject the run with an input-validation error as the claim states
for "either engine". -/
theorem claim_c6_counterexample :
    dirExists [] ["zz"] = false ∧
    Cleanup ⟨["zz"], false, false, false⟩ 1 [] = (⟨[], [], [], []⟩, none) := by
  decide

/-- C6 (amended): only the dedup engine validates the root path: on a
nonexistent root, `dedup.Run` returns an input-validation error before any
traversal (state untouched, nothing removed), while the cleanup engine
performs no validation and immediately returns success with an untouched
filesystem and an empty deletion set. -/
theorem claim_c6 (dopts : DedupOptions) (copts : CleanupOptions) (fuel : Nat)
    (fs : FS) (hd : dirExists fs dopts.chartPath = false)
    (hc : dirExists fs copts.chartPath = false) :
    (∃ m, (dedupRun dopts fuel fs).err = some (.ioErr m)) ∧
    (dedupRun dopts fuel fs).state = initDState ∧
    (dedupRun dopts fuel fs).fsAfter = fs ∧
    (dedupRun dopts fuel fs).removed = [] ∧
    Cleanup copts (fuel + 1) fs = (⟨fs, [], [], []⟩, none) := by
  unfold dedupRun
  rw [hd]
  refine ⟨⟨_, rfl⟩, rfl, rfl, rfl, ?_⟩
  unfold Cleanup
  simp only [processChart]
  rw [manifestAt_eq_noManifest_of_not_exists hc]
  simp

/-- C6 witness: the amended behaviour at a concrete nonexistent root. -/
theorem claim_c6_witness :
    (∃ m, (dedupRun ⟨["zz"], none, false, false, false, false⟩ 4
      [⟨["r"], .noManifest⟩]).err = some (.ioErr m)) ∧
    (dedupRun ⟨["zz"], none, false, false, false, false⟩ 4
      [⟨["r"], .noManifest⟩]).state = initDState ∧
    (dedupRun ⟨["zz"], none, false, false, false, false⟩ 4
      [⟨["r"], .noManifest⟩]).fsAfter = [⟨["r"], .noManifest⟩] ∧
    (dedupRun ⟨["zz"], none, false, false, false, false⟩ 4
      [⟨["r"], .noManifest⟩]).removed = [] ∧
    Cleanup ⟨["zz"], false, false, false⟩ 5 [⟨["r"], .noManifest⟩] =
      (⟨[⟨["r"], .noManifest⟩], [], [], []⟩, none) :=
  claim_c6 ⟨["zz"], none, false, false, false, false⟩ ⟨["zz"], false, false, false⟩
    4 [⟨["r"], .noManifest⟩] (by decide) (by decide)

/-- C3/counterexample: a chart declaring two `file:` dependencies that
resolve to the same existing directory.  Dry-run reports the directory twice;
a non-dry-run removes it on the first dependency, finds it gone on the
second, and so removes (and reports) it only once — the reported dry-run
deletion sequence differs from what a non-dry-run actually removes. -/
theorem claim_c3_counterexample :
    (Cleanup ⟨["r"], true, false, false⟩ 3
        [⟨["r"], .wellformed [⟨"a", "1", "file:./dup"⟩, ⟨"b", "1", "file:./dup"⟩]⟩,
          ⟨["r", "dup"], .noManifest⟩]).1.deleted =
      [["r", "dup"], ["r", "dup"]] ∧
    (Cleanup ⟨["r"], false, false, false⟩ 3
        [⟨["r"], .wellformed [⟨"a", "1", "file:./dup"⟩, ⟨"b", "1", "file:./dup"⟩]⟩,
          ⟨["r", "dup"], .noManifest⟩]).1.removed =
      [["r", "dup"]] ∧
    ([["r", "dup"], ["r", "dup"]] : List FsPath) ≠ [["r", "dup"]] := by
  decide

/-- C3 (amended): with dry-run set, neither engine mutates the filesystem or
removes anything, whatever the other flags; and for the dedup engine the
reported deletion set equals, as an ordered sequence, the paths a non-dry-run
invocation on the identical tree passes to removal.  (For the cleanup engine
that equality fails, see the counterexample: its removals happen during the
traversal and can hide later occurrences.) -/
theorem claim_c3 (o1 o2 : DedupOptions) (copts : CleanupOptions) (fuel : Nat)
    (fs : FS) (root : FsPath) (h1 : o1.dryRun = true) (h2 : o2.dryRun = false)
    (hc : copts.dryRun = true) :
    (DeduplicateChart o1 fuel fs root).fsAfter = fs ∧
    (DeduplicateChart o1 fuel fs root).removed = [] ∧
    (DeduplicateChart o1 fuel fs root).reported =
      (DeduplicateChart o2 fuel fs root).removed ∧
    (Cleanup copts fuel fs).1.fs = fs ∧
    (Cleanup copts fuel fs).1.removed = [] := by
  have hclean : (Cleanup copts fuel fs).1.fs = fs ∧
      (Cleanup copts fuel fs).1.removed = [] := by
    have := processChart_grow copts.dryRun fuel ⟨fs, [], [], []⟩ copts.chartPath
    obtain ⟨-, -, -, -, hdry⟩ := this
    obtain ⟨hfs, hrm⟩ := hdry hc
    exact ⟨hfs, hrm⟩
  unfold DeduplicateChart
  rcases hp : processDependencies fuel fs initDState root with ⟨st, e⟩
  cases e with
  | some e1 => exact ⟨rfl, rfl, rfl, hclean⟩
  | none =>
    rw [h1, h2]
    refine ⟨?_, ?_, ?_, hclean⟩ <;> simp

/-- C3 witness: the amended dry-run guarantees at a concrete tree with a
genuine duplicate (the dry-run report equals the non-dry-run removal list). -/
theorem claim_c3_witness :
    (DeduplicateChart ⟨["r"], none, false, true, true, false⟩ 5
      [⟨["r"], .noManifest⟩, ⟨["r", "charts"], .noManifest⟩,
        ⟨["r", "charts", "A"], .wellformed [⟨"x", "1", ""⟩]⟩,
        ⟨["r", "charts", "B"], .wellformed [⟨"x", "1", ""⟩]⟩] ["r"]).fsAfter =
      [⟨["r"], .noManifest⟩, ⟨["r", "charts"], .noManifest⟩,
        ⟨["r", "charts", "A"], .wellformed [⟨"x", "1", ""⟩]⟩,
        ⟨["r", "charts", "B"], .wellformed [⟨"x", "1", ""⟩]⟩] ∧
    (DeduplicateChart ⟨["r"], none, false, true, true, false⟩ 5
      [⟨["r"], .noManifest⟩, ⟨["r", "charts"], .noManifest⟩,
        ⟨["r", "charts", "A"], .wellformed [⟨"x", "1", ""⟩]⟩,
        ⟨["r", "charts", "B"], .wellformed [⟨"x", "1", ""⟩]⟩] ["r"]).removed = [] ∧
    (DeduplicateChart ⟨["r"], none, false, true, true, false⟩ 5
      [⟨["r"], .noManifest⟩, ⟨["r", "charts"], .noManifest⟩,
        ⟨["r", "charts", "A"], .wellformed [⟨"x", "1", ""⟩]⟩,
        ⟨["r", "charts", "B"], .wellformed [⟨"x", "1", ""⟩]⟩] ["r"]).reported =
      (DeduplicateChart ⟨["r"], none, false, false, true, false⟩ 5
        [⟨["r"], .noManifest⟩, ⟨["r", "charts"], .noManifest⟩,
          ⟨["r", "charts", "A"], .wellformed [⟨"x", "1", ""⟩]⟩,
          ⟨["r", "charts", "B"], .wellformed [⟨"x", "1", ""⟩]⟩] ["r"]).removed ∧
    (Cleanup ⟨["r"], true, true, false⟩ 5
      [⟨["r"], .noManifest⟩, ⟨["r", "charts"], .noManifest⟩,
        ⟨["r", "charts", "A"], .wellformed [⟨"x", "1", ""⟩]⟩,
        ⟨["r", "charts", "B"], .wellformed [⟨"x", "1", ""⟩]⟩]).1.fs =
      [⟨["r"], .noManifest⟩, ⟨["r", "charts"], .noManifest⟩,
        ⟨["r", "charts", "A"], .wellformed [⟨"x", "1", ""⟩]⟩,
        ⟨["r", "charts", "B"], .wellformed [⟨"x", "1", ""⟩]⟩] ∧
    (Cleanup ⟨["r"], true, true, false⟩ 5
      [⟨["r"], .noManifest⟩, ⟨["r", "charts"], .noManifest⟩,
        ⟨["r", "charts", "A"], .wellformed [⟨"x", "1", ""⟩]⟩,
        ⟨["r", "charts", "B"], .wellformed [⟨"x", "1", ""⟩]⟩]).1.removed = [] :=
  claim_c3 ⟨["r"], none, false, true, true, false⟩
    ⟨["r"], none, false, false, true, false⟩ ⟨["r"], true, true, false⟩ 5 _ ["r"]
    rfl rfl rfl

/-- C4: no path whose immediate parent directory is a dependency-storage
(`charts`) directory is ever recorded in cleanup's deletion set, nor ever
passed to removal — in dry-run and in normal mode alike (the guard at
`cleaner.go` precedes both the recording and the `os.RemoveAll`). -/
theorem claim_c4 (opts : CleanupOptions) (fuel : Nat) (fs : FS) (st : CState)
    (e : Option CErr) (h : Cleanup opts fuel fs = (st, e)) :
    (∀ q ∈ st.deleted, parentDirName q ≠ "charts") ∧
    (∀ q ∈ st.removed, parentDirName q ≠ "charts") := by
  have hg := processChart_grow opts.dryRun fuel ⟨fs, [], [], []⟩ opts.chartPath
  unfold Cleanup at h
  rw [h] at hg
  have hg' : CGrow opts.dryRun ⟨fs, [], [], []⟩ st := hg
  obtain ⟨-, ⟨l, hd, hgd⟩, ⟨m, hr, hgr⟩, -, -⟩ := hg'
  constructor
  · intro q hq
    exact hgd q (by simpa [hd] using hq)
  · intro q hq
    exact hgr q (by simpa [hr] using hq)

/-- C4 witness: a concrete run whose deletion set is nonempty and satisfies
the guard. -/
theorem claim_c4_witness :
    (∀ q ∈ (Cleanup ⟨["r"], false, false, false⟩ 5
      [⟨["r"], .wellformed [⟨"db", "1", "file:./db"⟩]⟩,
        ⟨["r", "db"], .noManifest⟩]).1.deleted, parentDirName q ≠ "charts") ∧
    (∀ q ∈ (Cleanup ⟨["r"], false, false, false⟩ 5
      [⟨["r"], .wellformed [⟨"db", "1", "file:./db"⟩]⟩,
        ⟨["r", "db"], .noManifest⟩]).1.removed, parentDirName q ≠ "charts") :=
  claim_c4 ⟨["r"], false, false, false⟩ 5
    [⟨["r"], .wellformed [⟨"db", "1", "file:./db"⟩]⟩, ⟨["r", "db"], .noManifest⟩]
    _ _ rfl

/-! ## Dedup engine: traversal master lemma -/

theorem DMaster_self {fs : FS} {P : FsPath → Prop} (st : DState)
    (e : Option DErr) : DMaster fs P st st e := by
  refine ⟨[], [], by simp, by simp, by simp, List.nodup_nil, by simp, by simp,
    fun _ => ⟨by simp, by simp⟩⟩

theorem DMaster_mono {fs : FS} {P Q : FsPath → Prop} {st st' : DState}
    {e : Option DErr} (hPQ : ∀ c, P c → Q c) (h : DMaster fs P st st' e) :
    DMaster fs Q st st' e := by
  obtain ⟨dv, de, h1, h2, h3, h4, h5, h6, h7⟩ := h
  exact ⟨dv, de, h1, h2, h3, h4,
    fun c hc => ⟨hPQ c ((h5 c hc).1), (h5 c hc).2⟩, h6, h7⟩

theorem DMaster_append {fs : FS} {P Q : FsPath → Prop} {st st1 st' : DState}
    {e : Option DErr} (h1 : DMaster fs P st st1 none)
    (h2 : DMaster fs Q st1 st' e) (hPQ : ∀ c, P c → Q c → False) :
    DMaster fs (fun c => P c ∨ Q c) st st' e := by
  obtain ⟨dv1, de1, hv1, he1, hc1, hn1, hp1, hm1, hok1⟩ := h1
  obtain ⟨dv2, de2, hv2, he2, hc2, hn2, hp2, hm2, hok2⟩ := h2
  refine ⟨dv1 ++ dv2, de1 ++ de2, ?_, ?_, ?_, ?_, ?_, ?_, ?_⟩
  · rw [hv2, hv1, List.append_assoc]
  · rw [he2, he1, List.append_assoc]
  · rw [hc2, hc1, List.foldl_append]
  · refine List.Nodup.append hn1 hn2 ?_
    intro c hcv1 hcv2
    exact hPQ c ((hp1 c hcv1).1) ((hp2 c hcv2).1)
  · intro c hc
    rcases List.mem_append.1 hc with h | h
    · exact ⟨Or.inl (hp1 c h).1, (hp1 c h).2⟩
    · exact ⟨Or.inr (hp2 c h).1, (hp2 c h).2⟩
  · intro ev hev
    rcases List.mem_append.1 hev with h | h
    · exact ⟨List.mem_append.2 (Or.inl (hm1 ev h).1), (hm1 ev h).2⟩
    · exact ⟨List.mem_append.2 (Or.inr (hm2 ev h).1), (hm2 ev h).2⟩
  · rintro rfl
    obtain ⟨hde1, hw1⟩ := hok1 rfl
    obtain ⟨hde2, hw2⟩ := hok2 rfl
    refine ⟨?_, ?_⟩
    · rw [hde1, hde2, List.flatMap_append]
    · intro c hc
      rcases List.mem_append.1 hc with h | h
      · exact hw1 c h
      · exact hw2 c h

theorem replay_map (c : FsPath) (deps : List DepRec) (core : DCore) :
    (deps.map (fun d => (c, d))).foldl replayDep core =
      deps.foldl (processDep c) core := by
  rw [List.foldl_map]
  rfl

theorem dedupQueue_master (fs : FS) (fuel : Nat) (chartsDir : FsPath)
    (IH : ∀ (st : DState) (q : FsPath) (st' : DState) (e : Option DErr),
      processDependencies fuel fs st q = (st', e) →
      DMaster fs (fun c => q <+: c) st st' e) :
    ∀ (ns : List String), ns.Nodup →
      ∀ (st st' : DState) (e : Option DErr),
        runQueue (fun st n =>
          if st.core.deleted.contains (chartsDir ++ [n]) then (st, none)
          else processDependencies fuel fs st (chartsDir ++ [n])) st ns = (st', e) →
        DMaster fs (fun c => ∃ n ∈ ns, (chartsDir ++ [n]) <+: c) st st' e := by
  intro ns
  induction ns with
  | nil =>
    intro _ st st' e h
    simp [runQueue] at h
    rw [← h.1, ← h.2]
    exact DMaster_self st _
  | cons n t ih =>
    intro hnd st st' e h
    have hnt : n ∉ t := (List.nodup_cons.1 hnd).1
    have htd : t.Nodup := (List.nodup_cons.1 hnd).2
    simp only [runQueue] at h
    by_cases hskip : st.core.deleted.contains (chartsDir ++ [n]) = true
    · rw [if_pos hskip] at h
      exact DMaster_mono
        (fun c ⟨n', hn', hpre⟩ => ⟨n', List.mem_cons_of_mem n hn', hpre⟩)
        (ih htd st st' e h)
    · rw [if_neg hskip] at h
      rcases hp : processDependencies fuel fs st (chartsDir ++ [n]) with ⟨st1, e1⟩
      rw [hp] at h
      cases e1 with
      | some e1 =>
        simp at h
        rw [← h.1, ← h.2]
        exact DMaster_mono
          (fun c hpre => ⟨n, List.mem_cons_self n t, hpre⟩) (IH st _ st1 _ hp)
      | none =>
        simp only at h
        have D1 := IH st _ st1 _ hp
        have D2 := ih htd st1 st' e h
        refine DMaster_mono ?_ (DMaster_append D1 D2 ?_)
        · rintro c (hpre | ⟨n', hn', hpre⟩)
          · exact ⟨n, List.mem_cons_self n t, hpre⟩
          · exact ⟨n', List.mem_cons_of_mem n hn', hpre⟩
        · rintro c hpre ⟨n', hn', hpre'⟩
          exact hnt (snoc_prefix_unique hpre hpre' ▸ hn')

theorem processDependencies_master (fs : FS) (wf : wfFS fs) :
    ∀ (fuel : Nat) (st : DState) (p : FsPath) (st' : DState) (e : Option DErr),
      processDependencies fuel fs st p = (st', e) →
      DMaster fs (fun c => p <+: c) st st' e := by
  intro fuel
  induction fuel with
  | zero =>
    intro st p st' e h
    simp [processDependencies] at h
    rw [← h.1, ← h.2]
    exact DMaster_self st _
  | succ fuel ih =>
    intro st p st' e h
    simp only [processDependencies] at h
    cases hm : manifestAt fs p with
    | noManifest =>
      rw [hm] at h
      simp only at h
      by_cases hd : dirExists fs (p ++ ["charts"]) = true
      · rw [if_pos hd] at h
        have hq := dedupQueue_master fs fuel (p ++ ["charts"])
          (fun st q => ih st q) (childNames fs (p ++ ["charts"]))
          (childNames_nodup wf _) st st' e h
        refine DMaster_mono ?_ hq
        rintro c ⟨n, _, hpre⟩
        exact (List.prefix_append p ["charts"]).trans
          ((List.prefix_append _ [n]).trans hpre)
      · rw [if_neg hd] at h
        injection h with h1 h2
        rw [← h1, ← h2]
        exact DMaster_self st _
    | unreadable msg =>
      rw [hm] at h
      simp only at h
      injection h with h1 h2
      rw [← h1, ← h2]
      refine ⟨[p], [], by simp, by simp, by simp, by simp, ?_, by simp, by simp⟩
      intro c hc
      rw [List.mem_singleton.1 hc]
      exact ⟨List.prefix_refl p, by rw [hm]; simp⟩
    | malformed msg =>
      rw [hm] at h
      simp only at h
      injection h with h1 h2
      rw [← h1, ← h2]
      refine ⟨[p], [], by simp, by simp, by simp, by simp, ?_, by simp, by simp⟩
      intro c hc
      rw [List.mem_singleton.1 hc]
      exact ⟨List.prefix_refl p, by rw [hm]; simp⟩
    | wellformed deps =>
      rw [hm] at h
      simp only at h
      have D1 : DMaster fs (fun c => c = p) st
          ⟨deps.foldl (processDep p) st.core, st.visited ++ [p],
            st.events ++ deps.map (fun d => (p, d))⟩ none := by
        refine ⟨[p], deps.map (fun d => (p, d)), by simp, by simp,
          (replay_map p deps st.core).symm, by simp, ?_, ?_, ?_⟩
        · intro c hc
          rw [List.mem_singleton.1 hc]
          exact ⟨rfl, by rw [hm]; simp⟩
        · intro ev hev
          rcases List.mem_map.1 hev with ⟨d2, hd2, rfl⟩
          refine ⟨by simp, ?_⟩
          rw [hm]
          exact hd2
        · intro _
          refine ⟨?_, fun c hc => ⟨deps, by rw [List.mem_singleton.1 hc, hm]⟩⟩
          simp [evsOf, depsOf, hm]
      by_cases hd : dirExists fs (p ++ ["charts"]) = true
      · rw [if_pos hd] at h
        have D2 := dedupQueue_master fs fuel (p ++ ["charts"])
          (fun st q => ih st q) (childNames fs (p ++ ["charts"]))
          (childNames_nodup wf _) _ st' e h
        refine DMaster_mono ?_ (DMaster_append D1 D2 ?_)
        · rintro c (rfl | ⟨n, _, hpre⟩)
          · exact List.prefix_refl c
          · exact (List.prefix_append p ["charts"]).trans
              ((List.prefix_append _ [n]).trans hpre)
        · rintro c rfl ⟨n, _, hpre⟩
          have hle := List.IsPrefix.length_le hpre
          simp at hle
      · rw [if_neg hd] at h
        injection h with h1 h2
        rw [← h1, ← h2]
        exact DMaster_mono (fun c hc => by rw [hc]) D1

/-! ## Claims C5 and C10 -/

theorem processDep_deleted (c : FsPath) (core : DCore) (d : DepRec) :
    (processDep c core d).deleted = core.deleted ∨
    (processDep c core d).deleted = core.deleted ++ [depPathOf c d.name] := by
  unfold processDep
  dsimp only
  split
  · split
    · split
      · right; rfl
      · left; rfl
    · left; rfl
  · left; rfl

theorem replay_deleted_shape :
    ∀ (de : List (FsPath × DepRec)) (core : DCore),
      ∀ q ∈ (de.foldl replayDep core).deleted,
        q ∈ core.deleted ∨ ∃ ev ∈ de, q = depPathOf ev.1 ev.2.name := by
  intro de
  induction de with
  | nil => intro core q hq; exact Or.inl hq
  | cons ev t ih =>
    intro core q hq
    rw [List.foldl_cons] at hq
    rcases ih (replayDep core ev) q hq with h | ⟨ev', hev', hq'⟩
    · rcases processDep_deleted ev.1 core ev.2 with hd | hd
      · exact Or.inl (by rw [← hd]; exact h)
      · rw [show replayDep core ev = processDep ev.1 core ev.2 from rfl, hd] at h
        rcases List.mem_append.1 h with h | h
        · exact Or.inl h
        · exact Or.inr ⟨ev, List.mem_cons_self ev t, List.mem_singleton.1 h⟩
    · exact Or.inr ⟨ev', List.mem_cons_of_mem ev hev', hq'⟩

/-- C10/counterexample: the invariant is false of the program because
`filepath.Join` cleans the dependency name: a root manifest declaring
`{name: ..-x, version: v2}` and then `{name: .., version: x-v2}` gives both
dependencies the same key `..-x-v2`; the second's expected path
`Join(r, charts, ..)` cleans to the root `r` itself, which is condemned as a
same-parent duplicate and then removed by the non-dry run — the root chart
path is both condemned and passed to removal. -/
theorem claim_c10_counterexample :
    (DeduplicateChart ⟨["r"], none, false, false, false, false⟩ 2
        [⟨["r"], .wellformed [⟨"..-x", "v2", ""⟩, ⟨"..", "x-v2", ""⟩]⟩]
        ["r"]).removed = [["r"]] ∧
    (DeduplicateChart ⟨["r"], none, false, false, false, false⟩ 2
        [⟨["r"], .wellformed [⟨"..-x", "v2", ""⟩, ⟨"..", "x-v2", ""⟩]⟩]
        ["r"]).fsAfter = [] ∧
    depKeyOf ⟨"..-x", "v2", ""⟩ = depKeyOf ⟨"..", "x-v2", ""⟩ := by
  decide

/-- C10 (amended): when every dependency name declared anywhere in the tree
is one ordinary path component (nonempty, no `/`, not `.` or `..`), every
path the deduplication traversal appends to its deletion set has the form
`chartDir ++ ["charts", name]` for some visited chart `chartDir` below the
root, so the supplied root path itself is never condemned, and never passed
to removal by `DeduplicateChart`.  (Without the clean-name proviso the claim
fails: `filepath.Join` cleans the name, and a `..` name can condemn the root
itself — see the counterexample.) -/
theorem claim_c10 (fuel : Nat) (fs : FS) (root : FsPath) (wf : wfFS fs)
    (hclean : ∀ en ∈ fs, ∀ dp ∈ manifestDeps en.m, cleanComp dp.name)
    (st : DState) (e : Option DErr)
    (h : processDependencies fuel fs initDState root = (st, e)) :
    (∀ q ∈ st.core.deleted, ∃ c n, c ∈ st.visited ∧ root <+: c ∧
      q = c ++ ["charts", n]) ∧
    root ∉ st.core.deleted ∧
    (∀ opts : DedupOptions, root ∉ (DeduplicateChart opts fuel fs root).removed) := by
  obtain ⟨dv, de, hv, he, hc, hn, hp, hmem, hok⟩ :=
    processDependencies_master fs wf fuel initDState root st e h
  simp only [initDState, List.nil_append] at hv he hc
  have hshape : ∀ q ∈ st.core.deleted, ∃ c n, c ∈ st.visited ∧ root <+: c ∧
      q = c ++ ["charts", n] := by
    intro q hq
    rw [hc] at hq
    rcases replay_deleted_shape de _ q hq with hbad | ⟨ev, hev, hqe⟩
    · simp [initDState] at hbad
    · have hcc : cleanComp ev.2.name := by
        have hman : manifestAt fs ev.1 ≠ .noManifest :=
          (hp ev.1 (hmem ev hev).1).2
        obtain ⟨en, hen, hpath, hm⟩ := manifestAt_mem hman
        refine hclean en hen ev.2 ?_
        rw [hm]
        exact (hmem ev hev).2
      rw [depPathOf_clean ev.1 ev.2.name hcc] at hqe
      exact ⟨ev.1, ev.2.name, by rw [hv]; exact (hmem ev hev).1,
        (hp ev.1 (hmem ev hev).1).1, hqe⟩
  have hroot : root ∉ st.core.deleted := by
    intro hr
    obtain ⟨c, n, _, hpre, heq⟩ := hshape root hr
    have h1 := List.IsPrefix.length_le hpre
    have h2 := congrArg List.length heq
    simp at h2
    omega
  refine ⟨hshape, hroot, ?_⟩
  intro opts
  unfold DeduplicateChart
  rw [h]
  cases e with
  | some e1 => simp
  | none =>
    by_cases hd : opts.dryRun = true
    · rw [hd]; simp
    · simp only [Bool.not_eq_true] at hd
      rw [hd]
      simpa using hroot

/-- C10 witness: the invariant at a concrete tree where the engine condemns
one duplicate. -/
theorem claim_c10_witness :
    (∀ q ∈ (processDependencies 5
        [⟨["r"], .noManifest⟩, ⟨["r", "charts"], .noManifest⟩,
          ⟨["r", "charts", "A"], .wellformed [⟨"x", "1", ""⟩]⟩,
          ⟨["r", "charts", "B"], .wellformed [⟨"x", "1", ""⟩]⟩]
        initDState ["r"]).1.core.deleted,
      ∃ c n, c ∈ (processDependencies 5
        [⟨["r"], .noManifest⟩, ⟨["r", "charts"], .noManifest⟩,
          ⟨["r", "charts", "A"], .wellformed [⟨"x", "1", ""⟩]⟩,
          ⟨["r", "charts", "B"], .wellformed [⟨"x", "1", ""⟩]⟩]
        initDState ["r"]).1.visited ∧ ["r"] <+: c ∧ q = c ++ ["charts", n]) ∧
    ["r"] ∉ (processDependencies 5
        [⟨["r"], .noManifest⟩, ⟨["r", "charts"], .noManifest⟩,
          ⟨["r", "charts", "A"], .wellformed [⟨"x", "1", ""⟩]⟩,
          ⟨["r", "charts", "B"], .wellformed [⟨"x", "1", ""⟩]⟩]
        initDState ["r"]).1.core.deleted ∧
    (∀ opts : DedupOptions, ["r"] ∉ (DeduplicateChart opts 5
        [⟨["r"], .noManifest⟩, ⟨["r", "charts"], .noManifest⟩,
          ⟨["r", "charts", "A"], .wellformed [⟨"x", "1", ""⟩]⟩,
          ⟨["r", "charts", "B"], .wellformed [⟨"x", "1", ""⟩]⟩] ["r"]).removed) :=
  claim_c10 5 _ ["r"] (by decide) (by decide) _ _ rfl

/-- C5: if the dedup traversal reaches a chart whose manifest is present but
unreadable or malformed, the whole run aborts with an error; and whenever a
run errors, `DeduplicateChart` performs no deletion at all — the filesystem
is returned untouched and nothing was passed to removal, because deletions
are deferred until the traversal has completed successfully. -/
theorem claim_c5 (opts : DedupOptions) (fuel : Nat) (fs : FS) (root : FsPath)
    (wf : wfFS fs) :
    ((DeduplicateChart opts fuel fs root).err ≠ none →
      (DeduplicateChart opts fuel fs root).fsAfter = fs ∧
      (DeduplicateChart opts fuel fs root).removed = []) ∧
    ((∃ c ∈ (DeduplicateChart opts fuel fs root).state.visited,
        (∃ m, manifestAt fs c = .unreadable m) ∨
        (∃ m, manifestAt fs c = .malformed m)) →
      (DeduplicateChart opts fuel fs root).err ≠ none) := by
  unfold DeduplicateChart
  rcases hp : processDependencies fuel fs initDState root with ⟨st, e⟩
  cases e with
  | some e1 => exact ⟨fun _ => ⟨rfl, rfl⟩, fun _ => by simp⟩
  | none =>
    obtain ⟨dv, de, hv, he, hc, hn, hpre, hmem, hok⟩ :=
      processDependencies_master fs wf fuel initDState root st none hp
    obtain ⟨-, hwell⟩ := hok rfl
    simp only [initDState, List.nil_append] at hv
    have hgood : ∀ c ∈ st.visited, ∀ m,
        manifestAt fs c ≠ .unreadable m ∧ manifestAt fs c ≠ .malformed m := by
      intro c hcv m
      obtain ⟨deps, hdeps⟩ := hwell c (by rw [← hv]; exact hcv)
      rw [hdeps]
      exact ⟨by simp, by simp⟩
    by_cases hd : opts.dryRun = true
    · rw [hd]
      refine ⟨fun hne => absurd rfl hne, ?_⟩
      rintro ⟨c, hcv, ⟨m, hm⟩ | ⟨m, hm⟩⟩
      · exact absurd hm (hgood c hcv m).1
      · exact absurd hm (hgood c hcv m).2
    · simp only [Bool.not_eq_true] at hd
      rw [hd]
      refine ⟨fun hne => absurd rfl hne, ?_⟩
      rintro ⟨c, hcv, ⟨m, hm⟩ | ⟨m, hm⟩⟩
      · exact absurd hm (hgood c hcv m).1
      · exact absurd hm (hgood c hcv m).2

/-- C5 witness: a tree whose root manifest is malformed — the run errors and
nothing is removed; the hypothesis side is exercised by the error case. -/
theorem claim_c5_witness :
    ((DeduplicateChart ⟨["r"], none, false, false, false, false⟩ 2
        [⟨["r"], .malformed "yaml: mapping values are not allowed here"⟩]
        ["r"]).err ≠ none →
      (DeduplicateChart ⟨["r"], none, false, false, false, false⟩ 2
        [⟨["r"], .malformed "yaml: mapping values are not allowed here"⟩]
        ["r"]).fsAfter =
        [⟨["r"], .malformed "yaml: mapping values are not allowed here"⟩] ∧
      (DeduplicateChart ⟨["r"], none, false, false, false, false⟩ 2
        [⟨["r"], .malformed "yaml: mapping values are not allowed here"⟩]
        ["r"]).removed = []) ∧
    ((∃ c ∈ (DeduplicateChart ⟨["r"], none, false, false, false, false⟩ 2
        [⟨["r"], .malformed "yaml: mapping values are not allowed here"⟩]
        ["r"]).state.visited,
        (∃ m, manifestAt
          [⟨["r"], .malformed "yaml: mapping values are not allowed here"⟩] c =
            .unreadable m) ∨
        (∃ m, manifestAt
          [⟨["r"], .malformed "yaml: mapping values are not allowed here"⟩] c =
            .malformed m)) →
      (DeduplicateChart ⟨["r"], none, false, false, false, false⟩ 2
        [⟨["r"], .malformed "yaml: mapping values are not allowed here"⟩]
        ["r"]).err ≠ none) :=
  claim_c5 ⟨["r"], none, false, false, false, false⟩ 2
    [⟨["r"], .malformed "yaml: mapping values are not allowed here"⟩] ["r"]
    (by decide)

/-! ## Claim C7 -/

theorem charsPrefix_append : ∀ (l t : List Char), charsPrefix l (l ++ t) = true := by
  intro l
  induction l with
  | nil => intro t; rfl
  | cons a as ih => intro t; simp [charsPrefix, ih]

theorem strStartsWith_append (a b : String) : strStartsWith (a ++ b) a = true := by
  unfold strStartsWith
  rw [String.data_append]
  exact charsPrefix_append a.data b.data

theorem cleanupDep_visited_eq (dry : Bool) (cp : FsPath) (st : CState)
    (dep : DepRec) : (cleanupDep dry cp st dep).visited = st.visited := by
  unfold cleanupDep
  dsimp only
  split
  · split
    · split
      · rfl
      · split
        · rfl
        · rfl
    · rfl
  · rfl

theorem cleanupDeps_visited_eq (dry : Bool) (cp : FsPath) :
    ∀ (deps : List DepRec) (st : CState),
      ((deps.foldl (cleanupDep dry cp) st).visited = st.visited) := by
  intro deps
  induction deps with
  | nil => intro st; rfl
  | cons d t ih =>
    intro st
    rw [List.foldl_cons, ih, cleanupDep_visited_eq]

theorem cleanupFileDependencies_err_shape (dry : Bool) (st : CState)
    (cp : FsPath) (st' : CState) (s : String)
    (h : cleanupFileDependencies dry st cp = (st', some (.errMsg s))) :
    strStartsWith s "failed to read Chart.yaml: " = true ∨
    strStartsWith s "failed to parse Chart.yaml: " = true := by
  unfold cleanupFileDependencies at h
  cases hm : manifestAt st.fs cp with
  | noManifest =>
    rw [hm] at h
    injection h with h1 h2
    injection h2 with h2
    injection h2 with h2
    rw [← h2]
    exact Or.inl (strStartsWith_append _ _)
  | unreadable m =>
    rw [hm] at h
    injection h with h1 h2
    injection h2 with h2
    injection h2 with h2
    rw [← h2]
    exact Or.inl (strStartsWith_append _ _)
  | malformed m =>
    rw [hm] at h
    injection h with h1 h2
    injection h2 with h2
    injection h2 with h2
    rw [← h2]
    exact Or.inr (strStartsWith_append _ _)
  | wellformed deps =>
    rw [hm] at h
    injection h with h1 h2
    cases h2

theorem processChart_err_shape (dry : Bool) :
    ∀ (fuel : Nat) (st : CState) (p : FsPath) (st' : CState) (s : String),
      processChart dry fuel st p = (st', some (.errMsg s)) →
      strStartsWith s "failed to read Chart.yaml: " = true ∨
      strStartsWith s "failed to parse Chart.yaml: " = true := by
  intro fuel
  induction fuel with
  | zero =>
    intro st p st' s h
    simp [processChart] at h
  | succ fuel ih =>
    intro st p st' s h
    simp only [processChart] at h
    split at h
    · simp at h
    · rcases hc : cleanupFileDependencies dry
          { st with visited := st.visited ++ [p] } p with ⟨st1, e1⟩
      rw [hc] at h
      cases e1 with
      | some e1 =>
        simp at h
        obtain ⟨h1, h2⟩ := h
        subst h2
        exact cleanupFileDependencies_err_shape dry _ p st1 s hc
      | none =>
        simp only at h
        split at h
        · exact (@runQueue_err_prop CState CErr _
            (fun ee => ∀ s2, ee = CErr.errMsg s2 →
              strStartsWith s2 "failed to read Chart.yaml: " = true ∨
              strStartsWith s2 "failed to parse Chart.yaml: " = true)
            (fun sss n sss' ee hh s2 he2 =>
              ih sss (p ++ ["charts"] ++ [n]) sss' s2 (by rw [he2] at hh; exact hh))
            _ st1 st' (.errMsg s) h) s rfl
        · simp at h

theorem processChart_visited_ok (dry : Bool) (fs0 : FS) (wf : wfFS fs0) :
    ∀ (fuel : Nat) (st : CState) (p : FsPath) (st' : CState),
      processChart dry fuel st p = (st', none) →
      st.fs.Sublist fs0 →
      (∀ c ∈ st'.visited, c ∈ st.visited ∨
        ∃ deps, manifestAt fs0 c = .wellformed deps) ∧
      st'.fs.Sublist fs0 := by
  intro fuel
  induction fuel with
  | zero =>
    intro st p st' h hsub
    simp [processChart] at h
  | succ fuel ih =>
    intro st p st' h hsub
    simp only [processChart] at h
    split at h
    · injection h with h1 h2
      rw [← h1]
      exact ⟨fun c hc => Or.inl hc, hsub⟩
    · rename_i hnm
      rcases hc : cleanupFileDependencies dry
          { st with visited := st.visited ++ [p] } p with ⟨st1, e1⟩
      rw [hc] at h
      cases e1 with
      | some e1 => simp at h
      | none =>
        have hcg := cleanupFileDependencies_grow dry
          { st with visited := st.visited ++ [p] } p
        rw [hc] at hcg
        have hst1fs : st1.fs.Sublist st.fs := hcg.1
        have hst1sub : st1.fs.Sublist fs0 := hst1fs.trans hsub
        obtain ⟨deps, hm, hfold⟩ : ∃ deps,
            manifestAt st.fs p = .wellformed deps ∧
            st1 = deps.foldl (cleanupDep dry p)
              { st with visited := st.visited ++ [p] } := by
          unfold cleanupFileDependencies at hc
          dsimp only at hc
          cases hm : manifestAt st.fs p with
          | noManifest => exact absurd hm hnm
          | unreadable m => rw [hm] at hc; simp at hc
          | malformed m => rw [hm] at hc; simp at hc
          | wellformed deps =>
            rw [hm] at hc
            injection hc with hc1 hc2
            exact ⟨deps, rfl, hc1.symm⟩
        have hvis1 : st1.visited = st.visited ++ [p] := by
          rw [hfold, cleanupDeps_visited_eq]
        have hgoodp : ∃ d2, manifestAt fs0 p = .wellformed d2 := by
          refine ⟨deps, ?_⟩
          rw [manifestAt_of_sublist wf hsub (by rw [hm]; simp), hm]
        have hmem1 : ∀ c ∈ st1.visited, c ∈ st.visited ∨
            ∃ d2, manifestAt fs0 c = .wellformed d2 := by
          intro c hcv
          rw [hvis1] at hcv
          rcases List.mem_append.1 hcv with hcv | hcv
          · exact Or.inl hcv
          · rw [List.mem_singleton.1 hcv]
            exact Or.inr hgoodp
        simp only at h
        split at h
        · have hq := @runQueue_ok_rel CState CErr _
            (fun a b => a.fs.Sublist fs0 →
              (∀ c ∈ b.visited, c ∈ a.visited ∨
                ∃ d2, manifestAt fs0 c = .wellformed d2) ∧ b.fs.Sublist fs0)
            (fun s hs => ⟨fun c hc => Or.inl hc, hs⟩)
            (fun a b c Rab Rbc ha =>
              ⟨fun x hx =>
                match (Rbc (Rab ha).2).1 x hx with
                | Or.inl hxb =>
                  match (Rab ha).1 x hxb with
                  | Or.inl hxa => Or.inl hxa
                  | Or.inr hg => Or.inr hg
                | Or.inr hg => Or.inr hg,
                (Rbc (Rab ha).2).2⟩)
            (fun s n s' hsn hs => ih s (p ++ ["charts"] ++ [n]) s' hsn hs)
            _ st1 st' h
          obtain ⟨hmemq, hfsq⟩ := hq hst1sub
          refine ⟨?_, hfsq⟩
          intro c hcv
          match hmemq c hcv with
          | Or.inl hc1 => exact hmem1 c hc1
          | Or.inr hg => exact Or.inr hg
        · injection h with h1 h2
          rw [← h1]
          exact ⟨hmem1, hst1sub⟩

/-- C7/counterexample: a malformed manifest at the (nested) chart `zq` aborts
the cleanup run, but the error message is
`failed to parse Chart.yaml: <yaml error>` — it does not contain the
offending chart's path (`zq` appears nowhere in it), contrary to the claim
that the error names the path of the offending chart node. -/
theorem claim_c7_counterexample :
    (Cleanup ⟨["zq"], false, false, false⟩ 2
        [⟨["zq"], .malformed "yaml: line 2: could not find expected key"⟩]).2 =
      some (.errMsg
        "failed to parse Chart.yaml: yaml: line 2: could not find expected key") ∧
    strContains
      "failed to parse Chart.yaml: yaml: line 2: could not find expected key"
      "zq" = false := by
  decide

/-- C7 (amended): a manifest that is present but unreadable or malformed at
any chart the cleanup traversal visits aborts the whole run with an error,
and every such error message is of the form
`failed to read Chart.yaml: <os error>` or
`failed to parse Chart.yaml: <yaml error>` — it names the manifest file, but
does not itself include the offending chart's directory path (the read
branch only carries whatever path the wrapped OS error contains). -/
theorem claim_c7 (opts : CleanupOptions) (fuel : Nat) (fs : FS) (wf : wfFS fs)
    (st : CState) (e : Option CErr) (h : Cleanup opts fuel fs = (st, e)) :
    ((∃ c ∈ st.visited, (∃ m, manifestAt fs c = .unreadable m) ∨
        (∃ m, manifestAt fs c = .malformed m)) → e ≠ none) ∧
    (∀ s, e = some (.errMsg s) →
      strStartsWith s "failed to read Chart.yaml: " = true ∨
      strStartsWith s "failed to parse Chart.yaml: " = true) := by
  unfold Cleanup at h
  constructor
  · rintro ⟨c, hcv, hbad⟩ he
    subst he
    obtain ⟨hmem, -⟩ := processChart_visited_ok opts.dryRun fs wf fuel
      ⟨fs, [], [], []⟩ opts.chartPath st h (List.Sublist.refl fs)
    rcases hmem c hcv with hnil | ⟨deps, hdeps⟩
    · simp at hnil
    · rcases hbad with ⟨m, hm⟩ | ⟨m, hm⟩ <;> rw [hm] at hdeps <;> cases hdeps
  · intro s hs
    subst hs
    exact processChart_err_shape opts.dryRun fuel ⟨fs, [], [], []⟩
      opts.chartPath st s h

/-- C7 witness: the amended behaviour at a concrete malformed tree. -/
theorem claim_c7_witness :
    ((∃ c ∈ (Cleanup ⟨["zq"], false, false, false⟩ 2
        [⟨["zq"], .malformed "yaml: bad"⟩]).1.visited,
        (∃ m, manifestAt [⟨["zq"], .malformed "yaml: bad"⟩] c = .unreadable m) ∨
        (∃ m, manifestAt [⟨["zq"], .malformed "yaml: bad"⟩] c = .malformed m)) →
      (Cleanup ⟨["zq"], false, false, false⟩ 2
        [⟨["zq"], .malformed "yaml: bad"⟩]).2 ≠ none) ∧
    (∀ s, (Cleanup ⟨["zq"], false, false, false⟩ 2
        [⟨["zq"], .malformed "yaml: bad"⟩]).2 = some (.errMsg s) →
      strStartsWith s "failed to read Chart.yaml: " = true ∨
      strStartsWith s "failed to parse Chart.yaml: " = true) :=
  claim_c7 ⟨["zq"], false, false, false⟩ 2 [⟨["zq"], .malformed "yaml: bad"⟩]
    (by decide) _ _ rfl

/-! ## Registry and dependency-classification lemmas -/

theorem depsOf_eq (fs : FS) (p : FsPath) :
    depsOf fs p = manifestDeps (manifestAt fs p) := by
  unfold depsOf manifestDeps
  cases manifestAt fs p <;> rfl

theorem lookupDeps_nil (k : String) : lookupDeps [] k = none := rfl

theorem lookupDeps_insert (m : List (String × List ChartPath)) (k : String)
    (v : List ChartPath) : lookupDeps (insertDeps m k v) k = some v := by
  induction m with
  | nil => simp [insertDeps, lookupDeps]
  | cons kv rest ih =>
    by_cases h : kv.1 = k
    · simp [insertDeps, h, lookupDeps]
    · simp only [insertDeps, if_neg h]
      unfold lookupDeps
      rw [List.find?_cons_of_neg _ (by simpa using h)]
      exact ih

theorem lookupDeps_insert_ne (m : List (String × List ChartPath))
    (k k' : String) (v : List ChartPath) (h : k' ≠ k) :
    lookupDeps (insertDeps m k v) k' = lookupDeps m k' := by
  induction m with
  | nil =>
    unfold insertDeps lookupDeps
    rw [List.find?_cons_of_neg _ (by simpa using fun hh : k = k' => h hh.symm)]
  | cons kv rest ih =>
    by_cases hk : kv.1 = k
    · unfold insertDeps
      rw [if_pos hk]
      unfold lookupDeps
      rw [List.find?_cons_of_neg _ (by simpa using fun hh : k = k' => h hh.symm),
        List.find?_cons_of_neg _ (by rw [hk]; simpa using fun hh : k = k' => h hh.symm)]
    · unfold insertDeps
      rw [if_neg hk]
      by_cases hk' : kv.1 = k'
      · unfold lookupDeps
        rw [List.find?_cons_of_pos _ (by simpa using hk'),
          List.find?_cons_of_pos _ (by simpa using hk')]
      · unfold lookupDeps
        rw [List.find?_cons_of_neg _ (by simpa using hk'),
          List.find?_cons_of_neg _ (by simpa using hk')]
        exact ih

theorem processDep_fresh (c : FsPath) (core : DCore) (d : DepRec)
    (h : lookupDeps core.overall (depKeyOf d) = none) :
    processDep c core d =
      { overall := insertDeps core.overall (depKeyOf d)
          [⟨depPathOf c d.name, c.dropLast⟩],
        current := core.current ++ [depPathOf c d.name],
        deleted := core.deleted } := by
  unfold processDep
  dsimp only
  rw [h]

theorem processDep_second_same_parent (c : FsPath) (core : DCore) (d : DepRec)
    (p1 par1 : FsPath)
    (h : lookupDeps core.overall (depKeyOf d) = some [⟨p1, par1⟩])
    (hne : p1 ≠ depPathOf c d.name) (hpar : par1 = c.dropLast) :
    processDep c core d =
      { core with deleted := core.deleted ++ [depPathOf c d.name] } := by
  unfold processDep
  dsimp only
  rw [h]
  have hscan : dupScan (depPathOf c d.name) c.dropLast false none
      [⟨p1, par1⟩] = (true, some p1) := by
    simp only [dupScan]
    rw [if_neg (show ¬ (p1 = depPathOf c d.name) from hne), if_pos hpar]
  dsimp only
  rw [hscan]
  dsimp only
  rw [if_pos (show some (depPathOf c d.name) ≠ some p1 from
    fun hh => hne (Option.some.inj hh).symm)]
  rfl

theorem processDep_second_diff_parent (c : FsPath) (core : DCore) (d : DepRec)
    (p1 par1 : FsPath)
    (h : lookupDeps core.overall (depKeyOf d) = some [⟨p1, par1⟩])
    (hne : p1 ≠ depPathOf c d.name) (hpar : par1 ≠ c.dropLast) :
    processDep c core d =
      { core with
        overall := insertDeps core.overall (depKeyOf d)
          [⟨p1, par1⟩, ⟨depPathOf c d.name, c.dropLast⟩],
        current := core.current ++ [depPathOf c d.name] } := by
  unfold processDep
  dsimp only
  rw [h]
  have hscan : dupScan (depPathOf c d.name) c.dropLast false none
      [⟨p1, par1⟩] = (false, some p1) := by
    simp only [dupScan]
    rw [if_neg (show ¬ (p1 = depPathOf c d.name) from hne),
      if_neg (show ¬ (par1 = c.dropLast) from hpar)]
  dsimp only
  rw [hscan]
  rfl

theorem replay_fresh :
    ∀ (E : List (FsPath × DepRec)) (core : DCore),
      (E.map (fun ev => depKeyOf ev.2)).Nodup →
      (∀ ev ∈ E, lookupDeps core.overall (depKeyOf ev.2) = none) →
      (E.foldl replayDep core).deleted = core.deleted ∧
      (∀ k, k ∉ E.map (fun ev => depKeyOf ev.2) →
        lookupDeps (E.foldl replayDep core).overall k =
          lookupDeps core.overall k) ∧
      (∃ ext, (E.foldl replayDep core).current = core.current ++ ext) := by
  intro E
  induction E with
  | nil =>
    intro core _ _
    exact ⟨rfl, fun k _ => rfl, ⟨[], by simp⟩⟩
  | cons ev t ih =>
    intro core hnd hfresh
    rw [List.map_cons] at hnd
    have hnd1 : (t.map (fun ev => depKeyOf ev.2)).Nodup :=
      (List.nodup_cons.1 hnd).2
    have hkev : depKeyOf ev.2 ∉ t.map (fun ev => depKeyOf ev.2) :=
      (List.nodup_cons.1 hnd).1
    have hstep := processDep_fresh ev.1 core ev.2
      (hfresh ev (List.mem_cons_self ev t))
    have hfold :
        (ev :: t).foldl replayDep core =
          t.foldl replayDep (processDep ev.1 core ev.2) := by
      rw [List.foldl_cons]; rfl
    have hfresh1 : ∀ ev' ∈ t,
        lookupDeps (processDep ev.1 core ev.2).overall (depKeyOf ev'.2) = none := by
      intro ev' hev'
      rw [hstep]
      have hne : depKeyOf ev'.2 ≠ depKeyOf ev.2 := by
        intro hh
        exact hkev (hh ▸ List.mem_map_of_mem (fun ev => depKeyOf ev.2) hev')
      rw [lookupDeps_insert_ne _ _ _ _ hne]
      exact hfresh ev' (List.mem_cons_of_mem ev hev')
    obtain ⟨hdel, hlook, ⟨ext, hcur⟩⟩ :=
      ih (processDep ev.1 core ev.2) hnd1 hfresh1
    refine ⟨?_, ?_, ?_⟩
    · rw [hfold, hdel, hstep]
    · intro k hk
      have hk1 : k ∉ t.map (fun ev => depKeyOf ev.2) := fun hh =>
        hk (by rw [List.map_cons]; exact List.mem_cons_of_mem _ hh)
      have hkev2 : k ≠ depKeyOf ev.2 := fun hh =>
        hk (by rw [List.map_cons, hh]; exact List.mem_cons_self _ _)
      rw [hfold, hlook k hk1, hstep, lookupDeps_insert_ne _ _ _ _ hkev2]
    · refine ⟨[depPathOf ev.1 ev.2.name] ++ ext, ?_⟩
      rw [hfold, hcur, hstep]
      simp

theorem replay_upto (k : String) (X Y : List (FsPath × DepRec))
    (c1 : FsPath) (d1 : DepRec) (hk1 : depKeyOf d1 = k)
    (hX : ∀ ev ∈ X, depKeyOf ev.2 ≠ k)
    (hY : ∀ ev ∈ Y, depKeyOf ev.2 ≠ k)
    (hnd : ((X ++ Y).map (fun ev => depKeyOf ev.2)).Nodup)
    (core : DCore)
    (hcore : core = (X ++ (c1, d1) :: Y).foldl replayDep ⟨[], [], []⟩) :
    core.deleted = [] ∧
    lookupDeps core.overall k =
      some [⟨depPathOf c1 d1.name, c1.dropLast⟩] ∧
    (depPathOf c1 d1.name) ∈ core.current ∧
    (∀ k', k' ∉ (X ++ Y).map (fun ev => depKeyOf ev.2) → k' ≠ k →
      lookupDeps core.overall k' = none) := by
  rw [List.map_append] at hnd
  obtain ⟨hndX, hndY, hdisj⟩ := List.nodup_append.1 hnd
  have hfreshX : ∀ ev ∈ X,
      lookupDeps (⟨[], [], []⟩ : DCore).overall (depKeyOf ev.2) = none :=
    fun ev _ => rfl
  obtain ⟨hdelX, hlookX, ⟨extX, hcurX⟩⟩ := replay_fresh X ⟨[], [], []⟩ hndX hfreshX
  have hkX : k ∉ X.map (fun ev => depKeyOf ev.2) := by
    intro hh
    rcases List.mem_map.1 hh with ⟨ev, hev, hkey⟩
    exact hX ev hev hkey
  have hkY : k ∉ Y.map (fun ev => depKeyOf ev.2) := by
    intro hh
    rcases List.mem_map.1 hh with ⟨ev, hev, hkey⟩
    exact hY ev hev hkey
  have hlookXk : lookupDeps (X.foldl replayDep ⟨[], [], []⟩).overall
      (depKeyOf d1) = none := by
    rw [hk1, hlookX k hkX]
    rfl
  have hstep := processDep_fresh c1 (X.foldl replayDep ⟨[], [], []⟩) d1 hlookXk
  have hfoldsplit : core = Y.foldl replayDep
      (processDep c1 (X.foldl replayDep ⟨[], [], []⟩) d1) := by
    rw [hcore, List.foldl_append, List.foldl_cons]
    rfl
  have hfreshY : ∀ ev ∈ Y,
      lookupDeps (processDep c1 (X.foldl replayDep ⟨[], [], []⟩) d1).overall
        (depKeyOf ev.2) = none := by
    intro ev hev
    rw [hstep]
    have hne : depKeyOf ev.2 ≠ depKeyOf d1 := by
      rw [hk1]; exact hY ev hev
    rw [lookupDeps_insert_ne _ _ _ _ hne]
    have : depKeyOf ev.2 ∉ X.map (fun ev => depKeyOf ev.2) := by
      intro hh
      exact hdisj hh (List.mem_map_of_mem (fun ev => depKeyOf ev.2) hev)
    rw [hlookX _ this]
    rfl
  obtain ⟨hdelY, hlookY, ⟨extY, hcurY⟩⟩ :=
    replay_fresh Y (processDep c1 (X.foldl replayDep ⟨[], [], []⟩) d1)
      hndY hfreshY
  refine ⟨?_, ?_, ?_, ?_⟩
  · rw [hfoldsplit, hdelY, hstep, hdelX]
  · rw [hfoldsplit, hlookY k hkY, hstep]
    dsimp only
    rw [hk1]
    exact lookupDeps_insert _ _ _
  · rw [hfoldsplit, hcurY, hstep]
    simp
  · intro k' hk' hkne
    rw [List.map_append] at hk'
    have hk'X : k' ∉ X.map (fun ev => depKeyOf ev.2) := by
      intro hh
      exact hk' (List.mem_append.2 (Or.inl hh))
    have hk'Y : k' ∉ Y.map (fun ev => depKeyOf ev.2) := by
      intro hh
      exact hk' (List.mem_append.2 (Or.inr hh))
    rw [hfoldsplit, hlookY k' hk'Y, hstep,
      lookupDeps_insert_ne _ _ _ _ (by rw [hk1]; exact hkne), hlookX k' hk'X]
    rfl

/-! ## Counting declared keys across the tree -/

theorem filter_map_length {α β : Type} (f : α → β) (p : β → Bool) :
    ∀ (l : List α),
      ((l.map f).filter p).length = (l.filter (fun x => p (f x))).length := by
  intro l
  induction l with
  | nil => rfl
  | cons a t ih =>
    simp only [List.map_cons, List.filter_cons]
    by_cases h : p (f a) = true
    · rw [if_pos h, if_pos h]
      simp [ih]
    · rw [if_neg h, if_neg h]
      exact ih

theorem length_filter_flatMap {α β : Type} (f : α → List β) (p : β → Bool) :
    ∀ (l : List α),
      ((l.flatMap f).filter p).length =
        (l.map (fun c => ((f c).filter p).length)).sum := by
  intro l
  induction l with
  | nil => rfl
  | cons a t ih =>
    rw [List.flatMap_cons, List.filter_append, List.length_append, ih,
      List.map_cons, List.sum_cons]

theorem sum_cnt_le (fs : FS) (wf : wfFS fs) (dv : List FsPath)
    (hnd : dv.Nodup) (hman : ∀ c ∈ dv, manifestAt fs c ≠ .noManifest)
    (k : String) :
    (dv.map (fun c =>
      ((depsOf fs c).filter (fun dd => depKeyOf dd = k)).length)).sum ≤
      declCount fs k := by
  set cnt := fun c =>
    ((depsOf fs c).filter (fun dd => depKeyOf dd = k)).length with hcnt
  set gk := fun e : Entry =>
    ((manifestDeps e.m).filter (fun dd => depKeyOf dd = k)).length with hgk
  set ent := fs.filter (fun e => decide (e.path ∈ dv)) with hent
  have hsub : ent.Sublist fs := List.filter_sublist fs
  have h1 : (ent.map gk).sum ≤ (fs.map gk).sum := by
    refine List.Sublist.sum_le_sum (hsub.map gk) ?_
    intro a _
    exact Nat.zero_le a
  have hperm : (ent.map Entry.path).Perm dv := by
    rw [List.perm_ext_iff_of_nodup ((hsub.map Entry.path).nodup wf) hnd]
    intro q
    constructor
    · intro hq
      rcases List.mem_map.1 hq with ⟨e, he, rfl⟩
      exact of_decide_eq_true (List.mem_filter.1 he).2
    · intro hq
      obtain ⟨e, he, hp, -⟩ := manifestAt_mem (hman q hq)
      exact List.mem_map.2 ⟨e, List.mem_filter.2 ⟨he, by rw [hp]; simpa using hq⟩, hp⟩
  have h2 : (dv.map cnt).sum = (ent.map gk).sum := by
    have hmapeq : ent.map gk = (ent.map Entry.path).map cnt := by
      rw [List.map_map]
      refine List.map_congr_left ?_
      intro e he
      have hefs : e ∈ fs := hsub.mem he
      show gk e = cnt e.path
      rw [hgk, hcnt]
      simp only
      rw [depsOf_eq, manifestAt_eq_of_mem wf hefs rfl]
    rw [hmapeq]
    exact (List.Perm.sum_eq (List.Perm.map cnt hperm)).symm
  rw [h2]
  exact h1

theorem events_key_le (fs : FS) (wf : wfFS fs) (dv : List FsPath)
    (hnd : dv.Nodup) (hman : ∀ c ∈ dv, manifestAt fs c ≠ .noManifest)
    (k : String) :
    ((dv.flatMap (evsOf fs)).filter
      (fun ev => depKeyOf ev.2 = k)).length ≤ declCount fs k := by
  rw [length_filter_flatMap]
  have : dv.map (fun c =>
      ((evsOf fs c).filter (fun ev => depKeyOf ev.2 = k)).length) =
      dv.map (fun c =>
      ((depsOf fs c).filter (fun dd => depKeyOf dd = k)).length) := by
    refine List.map_congr_left ?_
    intro c _
    unfold evsOf
    exact filter_map_length (fun d => (c, d)) (fun ev => depKeyOf ev.2 = k) _
  rw [this]
  exact sum_cnt_le fs wf dv hnd hman k

theorem nodup_of_filter_le_one :
    ∀ {l : List String},
      (∀ x, (l.filter (fun y => y = x)).length ≤ 1) → l.Nodup := by
  intro l
  induction l with
  | nil => intro _; exact List.nodup_nil
  | cons a t ih =>
    intro h
    rw [List.nodup_cons]
    constructor
    · intro hat
      have h1 := h a
      have hmem : a ∈ t.filter (fun y => y = a) :=
        List.mem_filter.2 ⟨hat, by simp⟩
      have hlen : 1 ≤ (t.filter (fun y => y = a)).length :=
        List.length_pos.2 (fun hemp => by rw [hemp] at hmem; cases hmem)
      have hlen2 : ((a :: t).filter (fun y => y = a)).length =
          (t.filter (fun y => y = a)).length + 1 := by
        rw [List.filter_cons, if_pos (by simp), List.length_cons]
      omega
    · refine ih ?_
      intro x
      have := h x
      have hsub : (t.filter (fun y => y = x)).length ≤
          ((a :: t).filter (fun y => y = x)).length :=
        List.Sublist.length_le
          (List.Sublist.filter _ (List.sublist_cons_self a t))
      omega

theorem filter_eq_singleton_split {α : Type} {p : α → Bool} :
    ∀ {l : List α} {x : α}, l.filter p = [x] →
      ∃ u w, l = u ++ x :: w ∧ u.filter p = [] ∧ w.filter p = [] := by
  intro l
  induction l with
  | nil => intro x h; simp at h
  | cons a t ih =>
    intro x h
    rw [List.filter_cons] at h
    by_cases hp : p a = true
    · rw [if_pos hp] at h
      injection h with h1 h2
      exact ⟨[], t, by rw [h1, List.nil_append], rfl, h2⟩
    · rw [if_neg hp] at h
      obtain ⟨u, w, hl, hu, hw⟩ := ih h
      refine ⟨a :: u, w, by rw [hl]; rfl, ?_, hw⟩
      rw [List.filter_cons, if_neg hp, hu]

theorem chartdep_ne {c1 c2 : FsPath} {a b : String} (h : c1 ≠ c2) :
    c1 ++ ["charts", a] ≠ c2 ++ ["charts", b] := by
  intro hh
  have hlen : c1.length = c2.length := by
    have := congrArg List.length hh
    simp at this
    omega
  exact h (List.append_inj_left hh hlen)

theorem replay_same_parent (k : String) (X Y Z : List (FsPath × DepRec))
    (c1 c2 : FsPath) (d1 d2 : DepRec)
    (hcn1 : cleanComp d1.name) (hcn2 : cleanComp d2.name)
    (hk1 : depKeyOf d1 = k) (hk2 : depKeyOf d2 = k)
    (hX : ∀ ev ∈ X, depKeyOf ev.2 ≠ k)
    (hY : ∀ ev ∈ Y, depKeyOf ev.2 ≠ k)
    (hZ : ∀ ev ∈ Z, depKeyOf ev.2 ≠ k)
    (hnd : ((X ++ Y ++ Z).map (fun ev => depKeyOf ev.2)).Nodup)
    (hne : c1 ≠ c2) (hpar : c1.dropLast = c2.dropLast) (core : DCore)
    (hcore : core = (X ++ (c1, d1) :: Y ++ (c2, d2) :: Z).foldl replayDep
      ⟨[], [], []⟩) :
    core.deleted = [c2 ++ ["charts", d2.name]] ∧
    (c1 ++ ["charts", d1.name]) ∈ core.current := by
  rw [List.map_append, List.map_append] at hnd
  obtain ⟨hndXYmap, hndZ, hdisj⟩ := List.nodup_append.1 hnd
  have hndXY : ((X ++ Y).map (fun ev => depKeyOf ev.2)).Nodup := by
    rw [List.map_append]; exact hndXYmap
  obtain ⟨hdelY, hlookY, hcurY, hlookNone⟩ :=
    replay_upto k X Y c1 d1 hk1 hX hY hndXY
      ((X ++ (c1, d1) :: Y).foldl replayDep ⟨[], [], []⟩) rfl
  rw [depPathOf_clean c1 d1.name hcn1] at hlookY hcurY
  have hsplit : core = Z.foldl replayDep
      (processDep c2 ((X ++ (c1, d1) :: Y).foldl replayDep ⟨[], [], []⟩) d2) := by
    rw [hcore]
    have hl : X ++ (c1, d1) :: Y ++ (c2, d2) :: Z =
        (X ++ (c1, d1) :: Y) ++ ((c2, d2) :: Z) := by simp
    rw [hl, List.foldl_append, List.foldl_cons]
    rfl
  have hlookC2 : lookupDeps
      ((X ++ (c1, d1) :: Y).foldl replayDep ⟨[], [], []⟩).overall
      (depKeyOf d2) =
      some [⟨c1 ++ ["charts", d1.name], c1.dropLast⟩] := by
    rw [hk2]; exact hlookY
  have hnep : (c1 ++ ["charts", d1.name]) ≠ depPathOf c2 d2.name := by
    rw [depPathOf_clean c2 d2.name hcn2]
    exact chartdep_ne hne
  have hstep := processDep_second_same_parent c2
    ((X ++ (c1, d1) :: Y).foldl replayDep ⟨[], [], []⟩) d2 _ _ hlookC2
    hnep hpar
  rw [depPathOf_clean c2 d2.name hcn2] at hstep
  have hfreshZ : ∀ ev ∈ Z, lookupDeps
      (processDep c2 ((X ++ (c1, d1) :: Y).foldl replayDep ⟨[], [], []⟩)
        d2).overall (depKeyOf ev.2) = none := by
    intro ev hev
    rw [hstep]
    have hnotXY : depKeyOf ev.2 ∉ (X ++ Y).map (fun ev => depKeyOf ev.2) := by
      intro hh
      rw [List.map_append] at hh
      exact hdisj hh
        (List.mem_map_of_mem (fun ev => depKeyOf ev.2) hev)
    exact hlookNone (depKeyOf ev.2) hnotXY (hZ ev hev)
  obtain ⟨hdelZ, -, ⟨extZ, hcurZ⟩⟩ := replay_fresh Z _ hndZ hfreshZ
  constructor
  · rw [hsplit, hdelZ, hstep]
    simp only
    rw [hdelY]
    rfl
  · rw [hsplit, hcurZ, hstep]
    simp only
    exact List.mem_append.2 (Or.inl hcurY)

theorem replay_diff_parent (k : String) (X Y Z : List (FsPath × DepRec))
    (c1 c2 : FsPath) (d1 d2 : DepRec)
    (hcn1 : cleanComp d1.name) (hcn2 : cleanComp d2.name)
    (hk1 : depKeyOf d1 = k) (hk2 : depKeyOf d2 = k)
    (hX : ∀ ev ∈ X, depKeyOf ev.2 ≠ k)
    (hY : ∀ ev ∈ Y, depKeyOf ev.2 ≠ k)
    (hZ : ∀ ev ∈ Z, depKeyOf ev.2 ≠ k)
    (hnd : ((X ++ Y ++ Z).map (fun ev => depKeyOf ev.2)).Nodup)
    (hne : c1 ≠ c2) (hpar : c1.dropLast ≠ c2.dropLast) (core : DCore)
    (hcore : core = (X ++ (c1, d1) :: Y ++ (c2, d2) :: Z).foldl replayDep
      ⟨[], [], []⟩) :
    core.deleted = [] ∧
    (c1 ++ ["charts", d1.name]) ∈ core.current ∧
    (c2 ++ ["charts", d2.name]) ∈ core.current := by
  rw [List.map_append, List.map_append] at hnd
  obtain ⟨hndXYmap, hndZ, hdisj⟩ := List.nodup_append.1 hnd
  have hndXY : ((X ++ Y).map (fun ev => depKeyOf ev.2)).Nodup := by
    rw [List.map_append]; exact hndXYmap
  obtain ⟨hdelY, hlookY, hcurY, hlookNone⟩ :=
    replay_upto k X Y c1 d1 hk1 hX hY hndXY
      ((X ++ (c1, d1) :: Y).foldl replayDep ⟨[], [], []⟩) rfl
  rw [depPathOf_clean c1 d1.name hcn1] at hlookY hcurY
  have hsplit : core = Z.foldl replayDep
      (processDep c2 ((X ++ (c1, d1) :: Y).foldl replayDep ⟨[], [], []⟩) d2) := by
    rw [hcore]
    have hl : X ++ (c1, d1) :: Y ++ (c2, d2) :: Z =
        (X ++ (c1, d1) :: Y) ++ ((c2, d2) :: Z) := by simp
    rw [hl, List.foldl_append, List.foldl_cons]
    rfl
  have hlookC2 : lookupDeps
      ((X ++ (c1, d1) :: Y).foldl replayDep ⟨[], [], []⟩).overall
      (depKeyOf d2) =
      some [⟨c1 ++ ["charts", d1.name], c1.dropLast⟩] := by
    rw [hk2]; exact hlookY
  have hnep : (c1 ++ ["charts", d1.name]) ≠ depPathOf c2 d2.name := by
    rw [depPathOf_clean c2 d2.name hcn2]
    exact chartdep_ne hne
  have hstep := processDep_second_diff_parent c2
    ((X ++ (c1, d1) :: Y).foldl replayDep ⟨[], [], []⟩) d2 _ _ hlookC2
    hnep hpar
  rw [depPathOf_clean c2 d2.name hcn2] at hstep
  have hfreshZ : ∀ ev ∈ Z, lookupDeps
      (processDep c2 ((X ++ (c1, d1) :: Y).foldl replayDep ⟨[], [], []⟩)
        d2).overall (depKeyOf ev.2) = none := by
    intro ev hev
    rw [hstep]
    simp only
    have hnec : depKeyOf ev.2 ≠ depKeyOf d2 := by
      rw [hk2]; exact hZ ev hev
    rw [lookupDeps_insert_ne _ _ _ _ hnec]
    have hnotXY : depKeyOf ev.2 ∉ (X ++ Y).map (fun ev => depKeyOf ev.2) := by
      intro hh
      rw [List.map_append] at hh
      exact hdisj hh
        (List.mem_map_of_mem (fun ev => depKeyOf ev.2) hev)
    exact hlookNone (depKeyOf ev.2) hnotXY (hZ ev hev)
  obtain ⟨hdelZ, -, ⟨extZ, hcurZ⟩⟩ := replay_fresh Z _ hndZ hfreshZ
  refine ⟨?_, ?_, ?_⟩
  · rw [hsplit, hdelZ, hstep]
    simp only
    exact hdelY
  · rw [hsplit, hcurZ, hstep]
    simp only
    exact List.mem_append.2 (Or.inl (List.mem_append.2 (Or.inl hcurY)))
  · rw [hsplit, hcurZ, hstep]
    simp only
    exact List.mem_append.2 (Or.inl (List.mem_append.2 (Or.inr (by simp))))

theorem filter_nil_not {α : Type} {p : α → Bool} {l : List α}
    (h : l.filter p = []) : ∀ x ∈ l, ¬ p x = true := by
  intro x hx hpx
  have : x ∈ l.filter p := List.mem_filter.2 ⟨hx, hpx⟩
  rw [h] at this
  cases this

theorem filter_nil_of_not {α : Type} {p : α → Bool} :
    ∀ {l : List α}, (∀ x ∈ l, ¬ p x = true) → l.filter p = [] := by
  intro l
  induction l with
  | nil => intro _; rfl
  | cons a t ih =>
    intro h
    rw [List.filter_cons, if_neg (h a (List.mem_cons_self a t))]
    exact ih (fun x hx => h x (List.mem_cons_of_mem a hx))

theorem sublist_skip_two {α : Type} (X Y Z : List α) (e1 e2 : α) :
    (X ++ Y ++ Z).Sublist (X ++ e1 :: Y ++ e2 :: Z) :=
  List.Sublist.append
    (List.Sublist.append_left (List.sublist_cons_self e1 Y) X)
    (List.sublist_cons_self e2 Z)

theorem dedup_setup (fuel : Nat) (fs : FS) (root : FsPath) (wf : wfFS fs)
    (st : DState) (h : processDependencies fuel fs initDState root = (st, none))
    (c1 c2 : FsPath) (nm vr r1 r2 : String) (a b d : List FsPath)
    (hsplit : st.visited = a ++ c1 :: b ++ c2 :: d)
    (h1 : (depsOf fs c1).filter (fun dp => depKeyOf dp = nm ++ "-" ++ vr) =
      [⟨nm, vr, r1⟩])
    (h2 : (depsOf fs c2).filter (fun dp => depKeyOf dp = nm ++ "-" ++ vr) =
      [⟨nm, vr, r2⟩])
    (htot : declCount fs (nm ++ "-" ++ vr) = 2)
    (hother : ∀ k', k' ≠ nm ++ "-" ++ vr → declCount fs k' ≤ 1) :
    ∃ X Y Z : List (FsPath × DepRec),
      st.core = (X ++ (c1, (⟨nm, vr, r1⟩ : DepRec)) :: Y ++
        (c2, (⟨nm, vr, r2⟩ : DepRec)) :: Z).foldl replayDep ⟨[], [], []⟩ ∧
      (∀ ev ∈ X, depKeyOf ev.2 ≠ nm ++ "-" ++ vr) ∧
      (∀ ev ∈ Y, depKeyOf ev.2 ≠ nm ++ "-" ++ vr) ∧
      (∀ ev ∈ Z, depKeyOf ev.2 ≠ nm ++ "-" ++ vr) ∧
      ((X ++ Y ++ Z).map (fun ev => depKeyOf ev.2)).Nodup ∧
      c1 ≠ c2 := by
  obtain ⟨dv, de, hv, he, hc, hndv, hpre, hmemev, hok⟩ :=
    processDependencies_master fs wf fuel initDState root st none h
  obtain ⟨hde, hwell⟩ := hok rfl
  simp only [initDState, List.nil_append] at hv he hc
  have hdv : dv = a ++ c1 :: b ++ c2 :: d := by rw [← hv, hsplit]
  subst hdv
  obtain ⟨ndl, ndr, disjlr⟩ := List.nodup_append.1 hndv
  obtain ⟨nda, ndc1b, disja⟩ := List.nodup_append.1 ndl
  obtain ⟨hc1b, ndb⟩ := List.nodup_cons.1 ndc1b
  obtain ⟨hc2d, ndd⟩ := List.nodup_cons.1 ndr
  have hc1mem : c1 ∈ a ++ c1 :: b :=
    List.mem_append.2 (Or.inr (List.mem_cons_self _ _))
  have hc2mem : c2 ∈ c2 :: d := List.mem_cons_self _ _
  have hc1c2 : c1 ≠ c2 := fun hh =>
    disjlr hc1mem (by rw [hh]; exact List.mem_cons_self _ _)
  have hc1a : c1 ∉ a := fun hh => disja hh (List.mem_cons_self _ _)
  have hc2a : c2 ∉ a := fun hh =>
    disjlr (List.mem_append.2 (Or.inl hh)) hc2mem
  have hc2b : c2 ∉ b := fun hh =>
    disjlr (List.mem_append.2 (Or.inr (List.mem_cons_of_mem _ hh))) hc2mem
  have hc1d : c1 ∉ d := fun hh => disjlr hc1mem (List.mem_cons_of_mem _ hh)
  have hman : ∀ c ∈ a ++ c1 :: b ++ c2 :: d,
      manifestAt fs c ≠ .noManifest := fun c hcv => (hpre c hcv).2
  have hc1dv : c1 ∈ a ++ c1 :: b ++ c2 :: d :=
    List.mem_append.2 (Or.inl hc1mem)
  have hc2dv : c2 ∈ a ++ c1 :: b ++ c2 :: d :=
    List.mem_append.2 (Or.inr hc2mem)
  have hcnt1 : ((depsOf fs c1).filter
      (fun dd => depKeyOf dd = nm ++ "-" ++ vr)).length = 1 := by
    rw [h1]; rfl
  have hcnt2 : ((depsOf fs c2).filter
      (fun dd => depKeyOf dd = nm ++ "-" ++ vr)).length = 1 := by
    rw [h2]; rfl
  have hcnt0 : ∀ c, (c ∈ a ∨ c ∈ b ∨ c ∈ d) →
      (depsOf fs c).filter (fun dd => depKeyOf dd = nm ++ "-" ++ vr) = [] := by
    intro c hcm
    have hcdv : c ∈ a ++ c1 :: b ++ c2 :: d := by
      rcases hcm with hca | hcb | hcd
      · exact List.mem_append.2 (Or.inl (List.mem_append.2 (Or.inl hca)))
      · exact List.mem_append.2 (Or.inl (List.mem_append.2 (Or.inr
          (List.mem_cons_of_mem _ hcb))))
      · exact List.mem_append.2 (Or.inr (List.mem_cons_of_mem _ hcd))
    have hne1 : c ≠ c1 := by
      rintro rfl
      rcases hcm with hca | hcb | hcd
      · exact hc1a hca
      · exact hc1b hcb
      · exact hc1d hcd
    have hne2 : c ≠ c2 := by
      rintro rfl
      rcases hcm with hca | hcb | hcd
      · exact hc2a hca
      · exact hc2b hcb
      · exact hc2d hcd
    have hsum := sum_cnt_le fs wf [c, c1, c2]
      (by simp [hne1, hne2, hc1c2])
      (by
        intro x hx
        rcases List.mem_cons.1 hx with he | hx
        · rw [he]; exact hman c hcdv
        · rcases List.mem_cons.1 hx with he | hx
          · rw [he]; exact hman c1 hc1dv
          · rcases List.mem_cons.1 hx with he | hx
            · rw [he]; exact hman c2 hc2dv
            · cases hx)
      (nm ++ "-" ++ vr)
    rw [htot] at hsum
    simp only [List.map_cons, List.map_nil, List.sum_cons, List.sum_nil] at hsum
    rw [hcnt1, hcnt2] at hsum
    have : ((depsOf fs c).filter
        (fun dd => depKeyOf dd = nm ++ "-" ++ vr)).length = 0 := by omega
    exact List.length_eq_zero.1 this
  obtain ⟨u1, w1, hdep1, hu1, hw1⟩ := filter_eq_singleton_split h1
  obtain ⟨u2, w2, hdep2, hu2, hw2⟩ := filter_eq_singleton_split h2
  have hflatkey : ∀ (l : List FsPath), (∀ c ∈ l, c ∈ a ∨ c ∈ b ∨ c ∈ d) →
      ∀ ev ∈ l.flatMap (evsOf fs), depKeyOf ev.2 ≠ nm ++ "-" ++ vr := by
    intro l hl ev hev hkey
    rcases List.mem_flatMap.1 hev with ⟨c, hcl, hevc⟩
    unfold evsOf at hevc
    rcases List.mem_map.1 hevc with ⟨dd, hdd, rfl⟩
    exact filter_nil_not (hcnt0 c (hl c hcl)) dd hdd (by simpa using hkey)
  have hmapkey : ∀ (cc : FsPath) (u : List DepRec),
      u.filter (fun dp => depKeyOf dp = nm ++ "-" ++ vr) = [] →
      ∀ ev ∈ u.map (fun dd => (cc, dd)), depKeyOf ev.2 ≠ nm ++ "-" ++ vr := by
    intro cc u hu ev hev hkey
    rcases List.mem_map.1 hev with ⟨dd, hdd, rfl⟩
    exact filter_nil_not hu dd hdd (by simpa using hkey)
  have hdeeq : de =
      (a.flatMap (evsOf fs) ++ u1.map (fun dd => (c1, dd))) ++
        (c1, (⟨nm, vr, r1⟩ : DepRec)) ::
        (w1.map (fun dd => (c1, dd)) ++ b.flatMap (evsOf fs) ++
          u2.map (fun dd => (c2, dd))) ++
        (c2, (⟨nm, vr, r2⟩ : DepRec)) ::
        (w2.map (fun dd => (c2, dd)) ++ d.flatMap (evsOf fs)) := by
    rw [hde]
    have hev1 : evsOf fs c1 = u1.map (fun dd => (c1, dd)) ++
        (c1, (⟨nm, vr, r1⟩ : DepRec)) :: w1.map (fun dd => (c1, dd)) := by
      unfold evsOf
      rw [hdep1]
      simp
    have hev2 : evsOf fs c2 = u2.map (fun dd => (c2, dd)) ++
        (c2, (⟨nm, vr, r2⟩ : DepRec)) :: w2.map (fun dd => (c2, dd)) := by
      unfold evsOf
      rw [hdep2]
      simp
    rw [List.flatMap_append, List.flatMap_cons, List.flatMap_append,
      List.flatMap_cons, hev1, hev2]
    simp [List.append_assoc]
  refine ⟨a.flatMap (evsOf fs) ++ u1.map (fun dd => (c1, dd)),
    w1.map (fun dd => (c1, dd)) ++ b.flatMap (evsOf fs) ++
      u2.map (fun dd => (c2, dd)),
    w2.map (fun dd => (c2, dd)) ++ d.flatMap (evsOf fs), ?_, ?_, ?_, ?_, ?_, hc1c2⟩
  · rw [hc, hdeeq]
  · intro ev hev
    rcases List.mem_append.1 hev with hev | hev
    · exact hflatkey a (fun c hc => Or.inl hc) ev hev
    · exact hmapkey c1 u1 hu1 ev hev
  · intro ev hev
    rcases List.mem_append.1 hev with hev | hev
    · rcases List.mem_append.1 hev with hev | hev
      · exact hmapkey c1 w1 hw1 ev hev
      · exact hflatkey b (fun c hc => Or.inr (Or.inl hc)) ev hev
    · exact hmapkey c2 u2 hu2 ev hev
  · intro ev hev
    rcases List.mem_append.1 hev with hev | hev
    · exact hmapkey c2 w2 hw2 ev hev
    · exact hflatkey d (fun c hc => Or.inr (Or.inr hc)) ev hev
  · have hall : ∀ ev ∈ (a.flatMap (evsOf fs) ++ u1.map (fun dd => (c1, dd))) ++
        (w1.map (fun dd => (c1, dd)) ++ b.flatMap (evsOf fs) ++
          u2.map (fun dd => (c2, dd))) ++
        (w2.map (fun dd => (c2, dd)) ++ d.flatMap (evsOf fs)),
        depKeyOf ev.2 ≠ nm ++ "-" ++ vr := by
      intro ev hev
      rcases List.mem_append.1 hev with hev | hev
      · rcases List.mem_append.1 hev with hev | hev
        · rcases List.mem_append.1 hev with hev | hev
          · exact hflatkey a (fun c hc => Or.inl hc) ev hev
          · exact hmapkey c1 u1 hu1 ev hev
        · rcases List.mem_append.1 hev with hev | hev
          · rcases List.mem_append.1 hev with hev | hev
            · exact hmapkey c1 w1 hw1 ev hev
            · exact hflatkey b (fun c hc => Or.inr (Or.inl hc)) ev hev
          · exact hmapkey c2 u2 hu2 ev hev
      · rcases List.mem_append.1 hev with hev | hev
        · exact hmapkey c2 w2 hw2 ev hev
        · exact hflatkey d (fun c hc => Or.inr (Or.inr hc)) ev hev
    refine nodup_of_filter_le_one ?_
    intro x
    by_cases hx : x = nm ++ "-" ++ vr
    · have hnil : (((a.flatMap (evsOf fs) ++ u1.map (fun dd => (c1, dd))) ++
          (w1.map (fun dd => (c1, dd)) ++ b.flatMap (evsOf fs) ++
            u2.map (fun dd => (c2, dd))) ++
          (w2.map (fun dd => (c2, dd)) ++ d.flatMap (evsOf fs))).map
            (fun ev => depKeyOf ev.2)).filter (fun y => y = x) = [] := by
        refine filter_nil_of_not ?_
        intro y hy
        rcases List.mem_map.1 hy with ⟨ev, hev, rfl⟩
        rw [hx]
        simpa using hall ev hev
      rw [hnil]
      simp
    · have hsub : ((a.flatMap (evsOf fs) ++ u1.map (fun dd => (c1, dd))) ++
          (w1.map (fun dd => (c1, dd)) ++ b.flatMap (evsOf fs) ++
            u2.map (fun dd => (c2, dd))) ++
          (w2.map (fun dd => (c2, dd)) ++ d.flatMap (evsOf fs))).Sublist de := by
        rw [hdeeq]
        exact sublist_skip_two _ _ _ _ _
      have hlen1 := List.Sublist.length_le
        (List.Sublist.filter (fun y => decide (y = x))
          (List.Sublist.map (fun ev => depKeyOf ev.2) hsub))
      have hlen2 : ((de.map (fun ev => depKeyOf ev.2)).filter
          (fun y => y = x)).length =
          (de.filter (fun ev => depKeyOf ev.2 = x)).length :=
        filter_map_length (fun ev => depKeyOf ev.2) (fun y => y = x) de
      have hlen3 : (de.filter (fun ev => depKeyOf ev.2 = x)).length ≤
          declCount fs x := by
        rw [hde]
        exact events_key_le fs wf _ hndv hman x
      have hlen4 := hother x hx
      rw [hlen2] at hlen1
      exact le_trans hlen1 (le_trans hlen3 hlen4)

/-! ## Claims C1 and C2 -/

/-- C1 (amended): in a tree where the key `nm-vr` is declared by exactly two
charts (once each) that the traversal visits — `c1` discovered first, `c2`
second in depth-first pre-order — whose chart directories share the same
immediate parent directory, where the dependency name `nm` is one ordinary
path component, and where every other identity key is declared at most once
in the whole tree, deduplication deletes exactly the second occurrence's
expected path and keeps the first: the final deletion set is exactly
`[c2 ++ [charts, nm]]` and `c1 ++ [charts, nm]` is kept.  (Without the
every-other-key-at-most-once side condition the original claim fails: a
second, colliding key can condemn the first occurrence's path too — see the
counterexample; without the clean-name proviso `filepath.Join` can make the
two expected paths coincide.) -/
theorem claim_c1 (fuel : Nat) (fs : FS) (root : FsPath) (wf : wfFS fs)
    (st : DState) (h : processDependencies fuel fs initDState root = (st, none))
    (c1 c2 : FsPath) (nm vr r1 r2 : String) (a b d : List FsPath)
    (hsplit : st.visited = a ++ c1 :: b ++ c2 :: d)
    (hpar : c1.dropLast = c2.dropLast)
    (hcn : cleanComp nm)
    (h1 : (depsOf fs c1).filter (fun dp => depKeyOf dp = nm ++ "-" ++ vr) =
      [⟨nm, vr, r1⟩])
    (h2 : (depsOf fs c2).filter (fun dp => depKeyOf dp = nm ++ "-" ++ vr) =
      [⟨nm, vr, r2⟩])
    (htot : declCount fs (nm ++ "-" ++ vr) = 2)
    (hother : ∀ k', k' ≠ nm ++ "-" ++ vr → declCount fs k' ≤ 1) :
    st.core.deleted = [c2 ++ ["charts", nm]] ∧
    (c1 ++ ["charts", nm]) ∈ st.core.current ∧
    (c1 ++ ["charts", nm]) ∉ st.core.deleted := by
  obtain ⟨X, Y, Z, hcore, hX, hY, hZ, hnd, hne⟩ :=
    dedup_setup fuel fs root wf st h c1 c2 nm vr r1 r2 a b d hsplit h1 h2
      htot hother
  obtain ⟨hdel, hcur⟩ := replay_same_parent (nm ++ "-" ++ vr) X Y Z c1 c2
    ⟨nm, vr, r1⟩ ⟨nm, vr, r2⟩ hcn hcn rfl rfl hX hY hZ hnd hne hpar st.core hcore
  refine ⟨hdel, hcur, ?_⟩
  rw [hdel]
  simp only [List.mem_singleton]
  exact chartdep_ne hne

/-- C1 witness: two sibling charts under the same `charts` directory both
declaring `x-1` — the second discovered is condemned, the first kept. -/
theorem claim_c1_witness :
    (processDependencies 5
        [⟨["r"], .noManifest⟩, ⟨["r", "charts"], .noManifest⟩,
          ⟨["r", "charts", "A"], .wellformed [⟨"x", "1", ""⟩]⟩,
          ⟨["r", "charts", "B"], .wellformed [⟨"x", "1", ""⟩]⟩]
        initDState ["r"]).1.core.deleted =
      [["r", "charts", "B"] ++ ["charts", "x"]] ∧
    (["r", "charts", "A"] ++ ["charts", "x"]) ∈
      (processDependencies 5
        [⟨["r"], .noManifest⟩, ⟨["r", "charts"], .noManifest⟩,
          ⟨["r", "charts", "A"], .wellformed [⟨"x", "1", ""⟩]⟩,
          ⟨["r", "charts", "B"], .wellformed [⟨"x", "1", ""⟩]⟩]
        initDState ["r"]).1.core.current ∧
    (["r", "charts", "A"] ++ ["charts", "x"]) ∉
      (processDependencies 5
        [⟨["r"], .noManifest⟩, ⟨["r", "charts"], .noManifest⟩,
          ⟨["r", "charts", "A"], .wellformed [⟨"x", "1", ""⟩]⟩,
          ⟨["r", "charts", "B"], .wellformed [⟨"x", "1", ""⟩]⟩]
        initDState ["r"]).1.core.deleted :=
  claim_c1 5
    [⟨["r"], .noManifest⟩, ⟨["r", "charts"], .noManifest⟩,
      ⟨["r", "charts", "A"], .wellformed [⟨"x", "1", ""⟩]⟩,
      ⟨["r", "charts", "B"], .wellformed [⟨"x", "1", ""⟩]⟩]
    ["r"] (by decide) _ rfl ["r", "charts", "A"] ["r", "charts", "B"]
    "x" "1" "" "" [] [] [] rfl (by decide) (by decide) (by decide) (by decide)
    (by decide)
    (by
      intro k' hk'
      have hne : ¬ (depKeyOf (⟨"x", "1", ""⟩ : DepRec) = k') :=
        fun hh => hk' (by rw [← hh]; rfl)
      simp [declCount, manifestDeps, List.filter_cons, hne])

/-- C1/counterexample: the claim as stated, quantifying over every tree with
a same-parent duplicate pair, is false.  Sibling charts `A` (declares `x-2`),
`B` (declares `x-2` then `x-1`) and `C` (declares `x-1`) are visited in the
sorted order `[A, B, C]` that `os.ReadDir` produces.  For the pair `x-1`,
declared at `B` (discovered first) and `C` (same parent `r/charts`), the
claim says exactly the expected path of `C` is deleted and that of `B` is
kept — but the colliding key `x-2` (first seen at `A`) already condemned the
expected path `r/charts/B/charts/x` of `B`, so both occurrence paths of
`x-1` end up in the
deletion set. -/
theorem claim_c1_counterexample :
    (processDependencies 3
        [⟨["r"], .noManifest⟩, ⟨["r", "charts"], .noManifest⟩,
          ⟨["r", "charts", "A"], .wellformed [⟨"x", "2", ""⟩]⟩,
          ⟨["r", "charts", "B"], .wellformed [⟨"x", "2", ""⟩, ⟨"x", "1", ""⟩]⟩,
          ⟨["r", "charts", "C"], .wellformed [⟨"x", "1", ""⟩]⟩]
        initDState ["r"]).1.core.deleted =
      [["r", "charts", "B", "charts", "x"], ["r", "charts", "C", "charts", "x"]] ∧
    (processDependencies 3
        [⟨["r"], .noManifest⟩, ⟨["r", "charts"], .noManifest⟩,
          ⟨["r", "charts", "A"], .wellformed [⟨"x", "2", ""⟩]⟩,
          ⟨["r", "charts", "B"], .wellformed [⟨"x", "2", ""⟩, ⟨"x", "1", ""⟩]⟩,
          ⟨["r", "charts", "C"], .wellformed [⟨"x", "1", ""⟩]⟩]
        initDState ["r"]).1.visited =
      [["r", "charts", "A"], ["r", "charts", "B"], ["r", "charts", "C"]] := by
  decide

/-- C2 (amended): in a tree where the key `nm-vr` is declared by exactly two
visited charts `c1` (first) and `c2` (second) whose chart directories have
different immediate parent directories, where the dependency name `nm` is
one ordinary path component, and where every other identity key is declared
at most once in the whole tree, deduplication deletes nothing at all and
keeps both expected on-disk paths.  (Without the at-most-once side condition
the original claim fails — see the counterexample, where a colliding second
key condemns one of the two occurrence paths.) -/
theorem claim_c2 (fuel : Nat) (fs : FS) (root : FsPath) (wf : wfFS fs)
    (st : DState) (h : processDependencies fuel fs initDState root = (st, none))
    (c1 c2 : FsPath) (nm vr r1 r2 : String) (a b d : List FsPath)
    (hsplit : st.visited = a ++ c1 :: b ++ c2 :: d)
    (hpar : c1.dropLast ≠ c2.dropLast)
    (hcn : cleanComp nm)
    (h1 : (depsOf fs c1).filter (fun dp => depKeyOf dp = nm ++ "-" ++ vr) =
      [⟨nm, vr, r1⟩])
    (h2 : (depsOf fs c2).filter (fun dp => depKeyOf dp = nm ++ "-" ++ vr) =
      [⟨nm, vr, r2⟩])
    (htot : declCount fs (nm ++ "-" ++ vr) = 2)
    (hother : ∀ k', k' ≠ nm ++ "-" ++ vr → declCount fs k' ≤ 1) :
    st.core.deleted = [] ∧
    (c1 ++ ["charts", nm]) ∈ st.core.current ∧
    (c2 ++ ["charts", nm]) ∈ st.core.current := by
  obtain ⟨X, Y, Z, hcore, hX, hY, hZ, hnd, hne⟩ :=
    dedup_setup fuel fs root wf st h c1 c2 nm vr r1 r2 a b d hsplit h1 h2
      htot hother
  exact replay_diff_parent (nm ++ "-" ++ vr) X Y Z c1 c2
    ⟨nm, vr, r1⟩ ⟨nm, vr, r2⟩ hcn hcn rfl rfl hX hY hZ hnd hne hpar st.core hcore

/-- C2 witness: the root chart and a nested subchart both declare `x-1` but
live under different parents — both expected paths survive and nothing is
deleted. -/
theorem claim_c2_witness :
    (processDependencies 5
        [⟨["r"], .wellformed [⟨"x", "1", ""⟩]⟩, ⟨["r", "charts"], .noManifest⟩,
          ⟨["r", "charts", "A"], .wellformed [⟨"x", "1", ""⟩]⟩]
        initDState ["r"]).1.core.deleted = [] ∧
    (["r"] ++ ["charts", "x"]) ∈
      (processDependencies 5
        [⟨["r"], .wellformed [⟨"x", "1", ""⟩]⟩, ⟨["r", "charts"], .noManifest⟩,
          ⟨["r", "charts", "A"], .wellformed [⟨"x", "1", ""⟩]⟩]
        initDState ["r"]).1.core.current ∧
    (["r", "charts", "A"] ++ ["charts", "x"]) ∈
      (processDependencies 5
        [⟨["r"], .wellformed [⟨"x", "1", ""⟩]⟩, ⟨["r", "charts"], .noManifest⟩,
          ⟨["r", "charts", "A"], .wellformed [⟨"x", "1", ""⟩]⟩]
        initDState ["r"]).1.core.current :=
  claim_c2 5
    [⟨["r"], .wellformed [⟨"x", "1", ""⟩]⟩, ⟨["r", "charts"], .noManifest⟩,
      ⟨["r", "charts", "A"], .wellformed [⟨"x", "1", ""⟩]⟩]
    ["r"] (by decide) _ rfl ["r"] ["r", "charts", "A"]
    "x" "1" "" "" [] [] [] rfl (by decide) (by decide) (by decide) (by decide)
    (by decide)
    (by
      intro k' hk'
      have hne : ¬ (depKeyOf (⟨"x", "1", ""⟩ : DepRec) = k') :=
        fun hh => hk' (by rw [← hh]; rfl)
      simp [declCount, manifestDeps, List.filter_cons, hne])

/-- C2/counterexample: with the sorted `os.ReadDir` order `[A, B, C]`, the
pair `x-1` is declared at `r/charts/B` (first) and at the nested chart
`r/charts/C/charts/D` — two charts with different immediate parent
directories — yet the expected path `r/charts/B/charts/x` of `B` is in the
deletion set, through the colliding key `x-2` that `A` and `B` (same parent)
both declare.  So "deduplication deletes neither occurrence path" fails as
stated. -/
theorem claim_c2_counterexample :
    (processDependencies 4
        [⟨["r"], .noManifest⟩, ⟨["r", "charts"], .noManifest⟩,
          ⟨["r", "charts", "A"], .wellformed [⟨"x", "2", ""⟩]⟩,
          ⟨["r", "charts", "B"], .wellformed [⟨"x", "2", ""⟩, ⟨"x", "1", ""⟩]⟩,
          ⟨["r", "charts", "C"], .wellformed []⟩,
          ⟨["r", "charts", "C", "charts"], .noManifest⟩,
          ⟨["r", "charts", "C", "charts", "D"], .wellformed [⟨"x", "1", ""⟩]⟩]
        initDState ["r"]).1.core.deleted =
      [["r", "charts", "B", "charts", "x"]] ∧
    (["r", "charts", "B"] : FsPath).dropLast ≠
      (["r", "charts", "C", "charts", "D"] : FsPath).dropLast ∧
    (processDependencies 4
        [⟨["r"], .noManifest⟩, ⟨["r", "charts"], .noManifest⟩,
          ⟨["r", "charts", "A"], .wellformed [⟨"x", "2", ""⟩]⟩,
          ⟨["r", "charts", "B"], .wellformed [⟨"x", "2", ""⟩, ⟨"x", "1", ""⟩]⟩,
          ⟨["r", "charts", "C"], .wellformed []⟩,
          ⟨["r", "charts", "C", "charts"], .noManifest⟩,
          ⟨["r", "charts", "C", "charts", "D"], .wellformed [⟨"x", "1", ""⟩]⟩]
        initDState ["r"]).1.visited =
      [["r", "charts", "A"], ["r", "charts", "B"], ["r", "charts", "C"],
        ["r", "charts", "C", "charts", "D"]] := by
  decide

/-! ## Cleanup idempotence (C9) -/

theorem wfFS_sublist {fs fs' : FS} (hs : fs'.Sublist fs) (wf : wfFS fs) :
    wfFS fs' :=
  List.Nodup.sublist (hs.map Entry.path) wf

theorem dirExists_mono {fs fs' : FS} (hs : fs'.Sublist fs) {p : FsPath}
    (h : dirExists fs' p = true) : dirExists fs p = true := by
  rw [dirExists_iff] at h ⊢
  obtain ⟨e, he, hp⟩ := h
  exact ⟨e, hs.mem he, hp⟩

theorem dirExists_false_of_sublist {fs fs' : FS} (hs : fs'.Sublist fs)
    {p : FsPath} (h : dirExists fs p = false) : dirExists fs' p = false := by
  cases hb : dirExists fs' p with
  | false => rfl
  | true => exact absurd (dirExists_mono hs hb) (by rw [h]; simp)

theorem childNames_mono {fs fs' : FS} (hs : fs'.Sublist fs) {d : FsPath}
    {n : String} (h : n ∈ childNames fs' d) : n ∈ childNames fs d := by
  rw [mem_childNames] at h ⊢
  obtain ⟨e, he, hp⟩ := h
  exact ⟨e, hs.mem he, hp⟩

theorem removeAll_dirExists (fs : FS) (p : FsPath) :
    dirExists (removeAll fs p) p = false := by
  cases hb : dirExists (removeAll fs p) p with
  | false => rfl
  | true =>
    exfalso
    rw [dirExists_iff] at hb
    obtain ⟨e, he, hp⟩ := hb
    rw [removeAll, List.mem_filter] at he
    have h2 := he.2
    simp at h2
    rw [hp, (startsWithPath_iff p p).2 (List.prefix_refl p)] at h2
    simp at h2

theorem reach_manifest {fs : FS} : ∀ (fuel : Nat) (p c : FsPath),
    c ∈ reach fs fuel p → manifestAt fs c ≠ .noManifest := by
  intro fuel
  induction fuel with
  | zero => intro p c h; simp [reach] at h
  | succ fuel ih =>
    intro p c h
    rw [reach] at h
    by_cases hm : manifestAt fs p = .noManifest
    · rw [if_pos hm] at h; simp at h
    · rw [if_neg hm] at h
      dsimp only at h
      by_cases hd : dirExists fs (p ++ ["charts"]) = true
      · rw [if_pos hd] at h
        rcases List.mem_cons.1 h with he | h2
        · rw [he]; exact hm
        · rw [List.mem_flatMap] at h2
          obtain ⟨n, hn, hc⟩ := h2
          exact ih _ _ hc
      · rw [if_neg hd] at h
        rw [List.mem_singleton.1 h]
        exact hm

theorem reach_mono {fs fs' : FS} (hs : fs'.Sublist fs) (wf : wfFS fs) :
    ∀ (fuel : Nat) (p c : FsPath), c ∈ reach fs' fuel p → c ∈ reach fs fuel p := by
  intro fuel
  induction fuel with
  | zero => intro p c h; simp [reach] at h
  | succ fuel ih =>
    intro p c h
    rw [reach] at h ⊢
    by_cases hm : manifestAt fs' p = .noManifest
    · rw [if_pos hm] at h; simp at h
    · have hm2 : ¬ manifestAt fs p = .noManifest := by
        rw [manifestAt_of_sublist wf hs hm]; exact hm
      rw [if_neg hm] at h
      rw [if_neg hm2]
      dsimp only at h ⊢
      by_cases hd : dirExists fs' (p ++ ["charts"]) = true
      · have hd2 : dirExists fs (p ++ ["charts"]) = true := dirExists_mono hs hd
        rw [if_pos hd] at h
        rw [if_pos hd2]
        rcases List.mem_cons.1 h with he | h2
        · rw [he]; exact List.mem_cons_self _ _
        · rw [List.mem_flatMap] at h2
          obtain ⟨n, hn, hc⟩ := h2
          exact List.mem_cons_of_mem _
            (List.mem_flatMap.2 ⟨n, childNames_mono hs hn, ih _ _ hc⟩)
      · rw [if_neg hd] at h
        rw [List.mem_singleton.1 h]
        by_cases hd2 : dirExists fs (p ++ ["charts"]) = true
        · rw [if_pos hd2]; exact List.mem_cons_self _ _
        · rw [if_neg hd2]; exact List.mem_singleton.2 rfl

theorem cleanAt_shrink {fs fs' : FS} (hs : fs'.Sublist fs) (wf : wfFS fs)
    {c : FsPath} (h : cleanAt fs c) (hm : manifestAt fs' c ≠ .noManifest) :
    cleanAt fs' c := by
  obtain ⟨deps, hmf, hdeps⟩ := h
  refine ⟨deps, ?_, ?_⟩
  · rw [← manifestAt_of_sublist wf hs hm]; exact hmf
  · intro dep hdep hf
    rcases hdeps dep hdep hf with hgone | hch
    · exact Or.inl (dirExists_false_of_sublist hs hgone)
    · exact Or.inr hch

theorem runQueue_clean_gen {σ ε : Type} {step : σ → String → σ × Option ε}
    {W : σ → Prop} {Sub : σ → σ → Prop} {Post : σ → String → Prop}
    (hsubrefl : ∀ s, Sub s s)
    (hsubtrans : ∀ a b c, Sub a b → Sub b c → Sub a c)
    (hstep : ∀ s n s', W s → step s n = (s', none) → W s' ∧ Sub s' s ∧ Post s' n)
    (hmono : ∀ a b n, Sub b a → W a → Post a n → Post b n) :
    ∀ (ns : List String) (st st' : σ), W st →
      runQueue step st ns = (st', none) →
      W st' ∧ Sub st' st ∧ ∀ n ∈ ns, Post st' n := by
  intro ns
  induction ns with
  | nil =>
    intro st st' w h
    simp [runQueue] at h
    rw [← h]
    exact ⟨w, hsubrefl st, fun n hn => absurd hn (List.not_mem_nil n)⟩
  | cons n t ih =>
    intro st st' w h
    simp only [runQueue] at h
    rcases hs : step st n with ⟨s1, e1⟩
    rw [hs] at h
    match e1, h with
    | some e1, h => simp at h
    | none, h =>
      simp at h
      obtain ⟨w1, hsub1, hpost1⟩ := hstep st n s1 w hs
      obtain ⟨w', hsub', hrest⟩ := ih s1 st' w1 h
      refine ⟨w', hsubtrans st' s1 st hsub' hsub1, ?_⟩
      intro m hm
      rcases List.mem_cons.1 hm with hem | hmt
      · rw [hem]
        exact hmono s1 st' n hsub' w1 hpost1
      · exact hrest m hmt

theorem cleanupDep_skip (dry : Bool) (cp : FsPath) (st : CState) (dep : DepRec)
    (h : strStartsWith dep.repository "file:" = true →
      dirExists st.fs (resolveFileDep cp dep) = false ∨
        parentDirName (resolveFileDep cp dep) = "charts") :
    cleanupDep dry cp st dep = st := by
  unfold cleanupDep
  dsimp only
  by_cases hf : strStartsWith dep.repository "file:" = true
  · rw [if_pos hf]
    rcases h hf with hgone | hch
    · rw [if_neg (by simp [hgone])]
    · by_cases hd : dirExists st.fs (resolveFileDep cp dep) = true
      · rw [if_pos hd, if_pos hch]
      · rw [if_neg hd]
  · rw [if_neg hf]

theorem foldl_cleanupDep_id (dry : Bool) (cp : FsPath) :
    ∀ (deps : List DepRec) (st : CState),
      (∀ dep ∈ deps, strStartsWith dep.repository "file:" = true →
        dirExists st.fs (resolveFileDep cp dep) = false ∨
          parentDirName (resolveFileDep cp dep) = "charts") →
      deps.foldl (cleanupDep dry cp) st = st := by
  intro deps
  induction deps with
  | nil => intro st _; rfl
  | cons a t ih =>
    intro st h
    rw [List.foldl_cons]
    have ha : cleanupDep dry cp st a = st :=
      cleanupDep_skip dry cp st a (h a (List.mem_cons_self a t))
    rw [ha]
    exact ih st (fun dep hdep => h dep (List.mem_cons_of_mem a hdep))

theorem foldl_cleanupDep_fs (dry : Bool) (cp : FsPath) (deps : List DepRec)
    (st : CState) : (deps.foldl (cleanupDep dry cp) st).fs.Sublist st.fs :=
  @foldl_rel DepRec CState (fun a b => b.fs.Sublist a.fs)
    (fun s => List.Sublist.refl s.fs)
    (fun _ _ _ h1 h2 => h2.trans h1) (cleanupDep dry cp)
    (fun s a => (cleanupDep_grow dry cp s a).1) deps st

theorem cleanupDeps_post (cp : FsPath) :
    ∀ (deps : List DepRec) (st : CState) (dep : DepRec), dep ∈ deps →
      strStartsWith dep.repository "file:" = true →
      dirExists (deps.foldl (cleanupDep false cp) st).fs
          (resolveFileDep cp dep) = false ∨
        parentDirName (resolveFileDep cp dep) = "charts" := by
  intro deps
  induction deps with
  | nil => intro st dep h; exact absurd h (List.not_mem_nil dep)
  | cons a t ih =>
    intro st dep hmem hf
    rw [List.foldl_cons]
    rcases List.mem_cons.1 hmem with he | ht
    · subst he
      by_cases hch : parentDirName (resolveFileDep cp dep) = "charts"
      · exact Or.inr hch
      · refine Or.inl ?_
        have hstep : dirExists (cleanupDep false cp st dep).fs
            (resolveFileDep cp dep) = false := by
          unfold cleanupDep
          dsimp only
          rw [if_pos hf]
          by_cases hd : dirExists st.fs (resolveFileDep cp dep) = true
          · rw [if_pos hd, if_neg hch, if_neg Bool.false_ne_true]
            exact removeAll_dirExists st.fs (resolveFileDep cp dep)
          · rw [if_neg hd]
            cases hb : dirExists st.fs (resolveFileDep cp dep) with
            | false => rfl
            | true => exact absurd hb hd
        exact dirExists_false_of_sublist
          (foldl_cleanupDep_fs false cp t (cleanupDep false cp st dep)) hstep
    · exact ih (cleanupDep false cp st a) dep ht hf

theorem self_mem_reach {fs : FS} {p : FsPath}
    (hnm : manifestAt fs p ≠ .noManifest) (fuel : Nat) :
    p ∈ reach fs (fuel + 1) p := by
  rw [reach]
  rw [if_neg hnm]
  dsimp only
  by_cases hd : dirExists fs (p ++ ["charts"]) = true
  · rw [if_pos hd]; exact List.mem_cons_self _ _
  · rw [if_neg hd]; exact List.mem_singleton.2 rfl

theorem targetsClean_child {fs : FS} {p : FsPath} (n : String)
    (hnm : manifestAt fs p ≠ .noManifest)
    (hd : dirExists fs (p ++ ["charts"]) = true)
    (h : targetsClean fs p) : targetsClean fs (p ++ ["charts"] ++ [n]) := by
  intro fuel2 c hc
  by_cases hn : n ∈ childNames fs (p ++ ["charts"])
  · apply h (fuel2 + 1) c
    rw [reach]
    rw [if_neg hnm]
    dsimp only
    rw [if_pos hd]
    exact List.mem_cons_of_mem _ (List.mem_flatMap.2 ⟨n, hn, hc⟩)
  · exfalso
    cases fuel2 with
    | zero => simp [reach] at hc
    | succ f2 =>
      rw [reach] at hc
      have hno : manifestAt fs (p ++ ["charts"] ++ [n]) = .noManifest := by
        apply manifestAt_eq_noManifest_of_not_exists
        cases hb : dirExists fs (p ++ ["charts"] ++ [n]) with
        | false => rfl
        | true =>
          exfalso
          rw [dirExists_iff] at hb
          obtain ⟨e, he, hp⟩ := hb
          exact hn (mem_childNames.2 ⟨e, he, hp⟩)
      rw [if_pos hno] at hc
      simp at hc

theorem processChart_post :
    ∀ (fuel : Nat) (st : CState) (p : FsPath) (st' : CState), wfFS st.fs →
      processChart false fuel st p = (st', none) →
      wfFS st'.fs ∧ st'.fs.Sublist st.fs ∧ targetsClean st'.fs p := by
  intro fuel
  induction fuel with
  | zero => intro st p st' wf h; simp [processChart] at h
  | succ fuel ih =>
    intro st p st' wf h
    simp only [processChart] at h
    split at h
    · rename_i hnm
      injection h with h1 h2
      rw [← h1]
      refine ⟨wf, List.Sublist.refl _, ?_⟩
      intro fuel2 c hc
      cases fuel2 with
      | zero => simp [reach] at hc
      | succ f2 =>
        rw [reach] at hc
        rw [if_pos hnm] at hc
        simp at hc
    · rename_i hnm
      rcases hc : cleanupFileDependencies false
          { st with visited := st.visited ++ [p] } p with ⟨st1, e1⟩
      rw [hc] at h
      cases e1 with
      | some e1 => simp at h
      | none =>
        obtain ⟨deps, hm, hfold⟩ : ∃ deps,
            manifestAt st.fs p = .wellformed deps ∧
            st1 = deps.foldl (cleanupDep false p)
              { st with visited := st.visited ++ [p] } := by
          unfold cleanupFileDependencies at hc
          dsimp only at hc
          cases hm : manifestAt st.fs p with
          | noManifest => exact absurd hm hnm
          | unreadable m => rw [hm] at hc; simp at hc
          | malformed m => rw [hm] at hc; simp at hc
          | wellformed deps =>
            rw [hm] at hc
            injection hc with hc1 hc2
            exact ⟨deps, rfl, hc1.symm⟩
        have hst1fs : st1.fs.Sublist st.fs := by
          rw [hfold]
          exact foldl_cleanupDep_fs false p deps _
        have wf1 : wfFS st1.fs := wfFS_sublist hst1fs wf
        have hguard1 : ∀ dep ∈ deps, strStartsWith dep.repository "file:" = true →
            dirExists st1.fs (resolveFileDep p dep) = false ∨
              parentDirName (resolveFileDep p dep) = "charts" := by
          intro dep hdep hf
          rw [hfold]
          exact cleanupDeps_post p deps _ dep hdep hf
        simp only at h
        split at h
        · rename_i hd1
          have hq := @runQueue_clean_gen CState CErr
            (fun s n => processChart false fuel s (p ++ ["charts"] ++ [n]))
            (fun s => wfFS s.fs)
            (fun a b => a.fs.Sublist b.fs)
            (fun s n => ∀ fuel2, ∀ c ∈ reach s.fs fuel2 (p ++ ["charts"] ++ [n]),
              cleanAt s.fs c)
            (fun s => List.Sublist.refl s.fs)
            (fun _ _ _ h1 h2 => h1.trans h2)
            (fun s n s' ws hsn => ih s (p ++ ["charts"] ++ [n]) s' ws hsn)
            (fun a b n hsub wa hp fuel2 c hcc =>
              cleanAt_shrink hsub wa (hp fuel2 c (reach_mono hsub wa fuel2 _ c hcc))
                (reach_manifest fuel2 _ c hcc))
            (childNames st1.fs (p ++ ["charts"])) st1 st' wf1 h
          obtain ⟨wf', hsub', hpost⟩ := hq
          refine ⟨wf', hsub'.trans hst1fs, ?_⟩
          intro fuel2 c hcr
          cases fuel2 with
          | zero => simp [reach] at hcr
          | succ f2 =>
            rw [reach] at hcr
            by_cases hnm' : manifestAt st'.fs p = .noManifest
            · rw [if_pos hnm'] at hcr; simp at hcr
            · rw [if_neg hnm'] at hcr
              dsimp only at hcr
              have hsubp : st'.fs.Sublist st.fs := hsub'.trans hst1fs
              have hmp' : manifestAt st'.fs p = .wellformed deps := by
                rw [← manifestAt_of_sublist wf hsubp hnm']
                exact hm
              have hcleanp : cleanAt st'.fs p := by
                refine ⟨deps, hmp', ?_⟩
                intro dep hdep hf
                rcases hguard1 dep hdep hf with hg | hch
                · exact Or.inl (dirExists_false_of_sublist hsub' hg)
                · exact Or.inr hch
              by_cases hd' : dirExists st'.fs (p ++ ["charts"]) = true
              · rw [if_pos hd'] at hcr
                rcases List.mem_cons.1 hcr with he | hc2
                · rw [he]; exact hcleanp
                · rw [List.mem_flatMap] at hc2
                  obtain ⟨n, hn, hcn⟩ := hc2
                  exact hpost n (childNames_mono hsub' hn) f2 c hcn
              · rw [if_neg hd'] at hcr
                rw [List.mem_singleton.1 hcr]
                exact hcleanp
        · rename_i hd1
          injection h with h1 h2
          rw [← h1]
          refine ⟨wf1, hst1fs, ?_⟩
          intro fuel2 c hcr
          cases fuel2 with
          | zero => simp [reach] at hcr
          | succ f2 =>
            rw [reach] at hcr
            by_cases hnm1 : manifestAt st1.fs p = .noManifest
            · rw [if_pos hnm1] at hcr; simp at hcr
            · rw [if_neg hnm1] at hcr
              dsimp only at hcr
              have hd1f : dirExists st1.fs (p ++ ["charts"]) = false := by
                cases hb : dirExists st1.fs (p ++ ["charts"]) with
                | false => rfl
                | true => exact absurd hb hd1
              rw [if_neg (by simp [hd1f])] at hcr
              rw [List.mem_singleton.1 hcr]
              have hm1 : manifestAt st1.fs p = .wellformed deps := by
                rw [← manifestAt_of_sublist wf hst1fs hnm1]
                exact hm
              exact ⟨deps, hm1, hguard1⟩

theorem processChart_clean (dry : Bool) :
    ∀ (fuel : Nat) (st : CState) (p : FsPath),
      targetsClean st.fs p →
      (processChart dry fuel st p).1.fs = st.fs ∧
      (processChart dry fuel st p).1.deleted = st.deleted ∧
      (processChart dry fuel st p).1.removed = st.removed := by
  intro fuel
  induction fuel with
  | zero => intro st p _; simp [processChart]
  | succ fuel ih =>
    intro st p hclean
    simp only [processChart]
    by_cases hnm : manifestAt st.fs p = .noManifest
    · rw [if_pos hnm]
      exact ⟨rfl, rfl, rfl⟩
    · rw [if_neg hnm]
      obtain ⟨deps, hm, hguard⟩ := hclean (0 + 1) p (self_mem_reach hnm 0)
      have hfold : deps.foldl (cleanupDep dry p)
          { st with visited := st.visited ++ [p] } =
          { st with visited := st.visited ++ [p] } :=
        foldl_cleanupDep_id dry p deps _ (fun dep hdep hf => hguard dep hdep hf)
      have hcf : cleanupFileDependencies dry
          { st with visited := st.visited ++ [p] } p =
          ({ st with visited := st.visited ++ [p] }, none) := by
        unfold cleanupFileDependencies
        dsimp only
        simp only [hm]
        rw [hfold]
      rw [hcf]
      dsimp only
      by_cases hd : dirExists st.fs (p ++ ["charts"]) = true
      · rw [if_pos hd]
        have hq := @runQueue_rel_fst CState CErr
          (fun s n => processChart dry fuel s (p ++ ["charts"] ++ [n]))
          (fun a b =>
            (a.fs = st.fs ∧ a.deleted = st.deleted ∧ a.removed = st.removed) →
            (b.fs = st.fs ∧ b.deleted = st.deleted ∧ b.removed = st.removed))
          (fun s hs => hs)
          (fun a b c Rab Rbc ha => Rbc (Rab ha))
          (fun s n hs => by
            have h3 := ih s (p ++ ["charts"] ++ [n]) (by
              rw [hs.1]
              exact targetsClean_child n hnm hd hclean)
            exact ⟨h3.1.trans hs.1, h3.2.1.trans hs.2.1, h3.2.2.trans hs.2.2⟩)
          (childNames st.fs (p ++ ["charts"]))
          { st with visited := st.visited ++ [p] }
        exact hq ⟨rfl, rfl, rfl⟩
      · rw [if_neg hd]
        exact ⟨rfl, rfl, rfl⟩

/-- C9: cleanup is idempotent.  On a well-formed tree, after a successful
non-dry-run cleanup (`Cleanup` with `dryRun = false` returning no error),
running cleanup again on the resulting filesystem — with any fuel and in
either mode — reports an empty deletion set and leaves the filesystem
untouched: every source directory the first run removed no longer exists,
so the existence check skips it (and the remaining targets were already
guarded by the `charts`-parent rule). -/
theorem claim_c9 (fs : FS) (p : FsPath) (sd vb : Bool) (fuel1 : Nat)
    (st1 : CState) (wf : wfFS fs)
    (h1 : Cleanup ⟨p, false, sd, vb⟩ fuel1 fs = (st1, none))
    (dry2 sd2 vb2 : Bool) (fuel2 : Nat) :
    (Cleanup ⟨p, dry2, sd2, vb2⟩ fuel2 st1.fs).1.deleted = [] ∧
    (Cleanup ⟨p, dry2, sd2, vb2⟩ fuel2 st1.fs).1.fs = st1.fs := by
  have h1' : processChart false fuel1 ⟨fs, [], [], []⟩ p = (st1, none) := h1
  obtain ⟨wf1, hsub, htc⟩ := processChart_post fuel1 ⟨fs, [], [], []⟩ p st1 wf h1'
  have h2 := processChart_clean dry2 fuel2 ⟨st1.fs, [], [], []⟩ p htc
  exact ⟨h2.2.1, h2.1⟩

/-- C9 witness: a root chart with one `file:` dependency whose source
directory the first run removes; the second run (here dry, fuel 3) deletes
nothing and leaves the filesystem as the first run left it. -/
theorem claim_c9_witness :
    Cleanup ⟨["r"], false, false, false⟩ 3
        [⟨["r"], .wellformed [⟨"sub", "1", "file:./sub"⟩]⟩,
          ⟨["r", "sub"], .noManifest⟩] =
      (⟨[⟨["r"], .wellformed [⟨"sub", "1", "file:./sub"⟩]⟩],
        [["r", "sub"]], [["r", "sub"]], [["r"]]⟩, none) ∧
    (Cleanup ⟨["r"], true, false, false⟩ 3
        [⟨["r"], .wellformed [⟨"sub", "1", "file:./sub"⟩]⟩]).1.deleted = [] ∧
    (Cleanup ⟨["r"], true, false, false⟩ 3
        [⟨["r"], .wellformed [⟨"sub", "1", "file:./sub"⟩]⟩]).1.fs =
      [⟨["r"], .wellformed [⟨"sub", "1", "file:./sub"⟩]⟩] :=
  ⟨by decide,
    claim_c9
      [⟨["r"], .wellformed [⟨"sub", "1", "file:./sub"⟩]⟩,
        ⟨["r", "sub"], .noManifest⟩]
      ["r"] false false 3
      ⟨[⟨["r"], .wellformed [⟨"sub", "1", "file:./sub"⟩]⟩],
        [["r", "sub"]], [["r", "sub"]], [["r"]]⟩
      (by decide) (by decide) true false false 3⟩
